import Mathlib

/-!
Verification of the rgssad archive codec (`src/lib.rs`, with `src/io_util.rs`
helpers) against its natural-language specification.

The Rust code is shallowly embedded over byte lists: a file or stream is a
`List Nat` of bytes (each `< 256`), 32-bit machine integers are `Nat` with
explicit reduction modulo `2 ^ 32` where the source wraps, and fallible
operations return `Except`/`PResult` values.  Readers are modelled as a pure
function of the file contents and the current stream position; writers return
the produced bytes.  Rust panics (from `checked_add(..).unwrap()` and
`try_into().unwrap()`) are modelled with a dedicated `PResult.panic` outcome,
distinct from recoverable `io::Error`s.
-/

namespace Rgssad

/-- `2 ^ 32`, the modulus of the source's `u32` arithmetic. -/
def U32 : Nat := 4294967296

/-- State update of `advance_magic`: `magic.wrapping_mul(7).wrapping_add(3)`.
The value emitted by a call to `advance_magic` is the *old* state. -/
def advance (magic : Nat) : Nat := (magic * 7 + 3) % U32

/-- `advance_magic(&mut magic)`: returns the emitted value together with the
updated state, exactly as the Rust function observed through its argument. -/
def advance_magic (magic : Nat) : Nat × Nat := (magic, advance magic)

/-- Iterated seed advancing: the state after `n` calls to `advance_magic`. -/
def advanceIter : Nat → Nat → Nat
  | 0, m => m
  | n + 1, m => advanceIter n (advance m)

/-- Byte `i` of the little-endian encoding of `w` (`w.to_le_bytes()[i]`). -/
def leByte (w i : Nat) : Nat := w / 256 ^ i % 256

/-- `w.to_le_bytes()` for a 32-bit value. -/
def toLeBytes4 (w : Nat) : List Nat :=
  [w % 256, w / 256 % 256, w / 65536 % 256, w / 16777216 % 256]

/-- `u32::from_le_bytes([b0, b1, b2, b3])`. -/
def fromLeBytes4 (b0 b1 b2 b3 : Nat) : Nat :=
  b0 + 256 * b1 + 65536 * b2 + 16777216 * b3

theorem advance_lt (m : Nat) : advance m < U32 := by
  simp only [advance, U32]
  omega

theorem advanceIter_lt (n m : Nat) (hn : 0 < n) : advanceIter n m < U32 := by
  induction n generalizing m with
  | zero => omega
  | succ n ih =>
    rcases Nat.eq_zero_or_pos n with h | h
    · subst h; simpa [advanceIter] using advance_lt m
    · simpa [advanceIter] using ih (advance m) h

theorem advanceIter_succ (n m : Nat) :
    advanceIter (n + 1) m = advance (advanceIter n m) := by
  induction n generalizing m with
  | zero => rfl
  | succ n ih => simpa [advanceIter] using ih (advance m)

theorem advanceIter_add (n k m : Nat) :
    advanceIter (n + k) m = advanceIter k (advanceIter n m) := by
  induction k with
  | zero => rfl
  | succ k ih => rw [← Nat.add_assoc, advanceIter_succ, advanceIter_succ, ih]

theorem advanceIter_shift (n m : Nat) :
    advanceIter n (advance m) = advanceIter (n + 1) m := by
  simp [advanceIter]

theorem advanceIter_congr (a b m : Nat) (h : a = b) :
    advanceIter a m = advanceIter b m := by
  rw [h]

theorem fromLeBytes4_toLeBytes4 (w : Nat) (h : w < U32) :
    fromLeBytes4 (w % 256) (w / 256 % 256) (w / 65536 % 256) (w / 16777216 % 256) = w := by
  simp only [fromLeBytes4, U32] at *
  omega

theorem toLeBytes4_fromLeBytes4 (b0 b1 b2 b3 : Nat)
    (h0 : b0 < 256) (h1 : b1 < 256) (h2 : b2 < 256) (h3 : b3 < 256) :
    toLeBytes4 (fromLeBytes4 b0 b1 b2 b3) = [b0, b1, b2, b3] := by
  simp only [toLeBytes4, fromLeBytes4, List.cons.injEq, and_true]
  omega

theorem fromLeBytes4_lt (b0 b1 b2 b3 : Nat)
    (h0 : b0 < 256) (h1 : b1 < 256) (h2 : b2 < 256) (h3 : b3 < 256) :
    fromLeBytes4 b0 b1 b2 b3 < U32 := by
  simp only [fromLeBytes4, U32]; omega

theorem toLeBytes4_lt (w : Nat) : ∀ b ∈ toLeBytes4 w, b < 256 := by
  simp only [toLeBytes4, List.mem_cons, List.not_mem_nil, or_false]
  rintro b (rfl | rfl | rfl | rfl) <;> omega

theorem xor_xor_cancel (a b : Nat) : (a ^^^ b) ^^^ b = a := by
  rw [Nat.xor_assoc, Nat.xor_self, Nat.xor_zero]

theorem xor_lt_U32 (a b : Nat) (ha : a < U32) (hb : b < U32) : a ^^^ b < U32 := by
  have h32 : U32 = 2 ^ 32 := by norm_num [U32]
  rw [h32] at ha hb ⊢
  exact Nat.xor_lt_two_pow ha hb

/-!
## Payload codec (`run_codec`)

`run_codec(buf, input, output, size, magic)` streams at most `size` bytes from
`input` to `output` through the XOR cipher, in chunks of at most `buf.len()`
bytes.  Each chunk is split (`align_to_mut::<u32>`) into complete little-endian
32-bit words, XORed with successive `advance_magic` emissions, and a 0–3 byte
remainder XORed with the little-endian bytes of the *current* (not advanced)
state.  The model reads from a byte list (so `read_full` returns
`min (buffer length) (bytes remaining)` and I/O never fails) and returns the
bytes written to the sink.
-/

/-- XOR the trailing (`suffix`) bytes with `magic.to_le_bytes()[i]`, starting
at byte index `i`; the state is not advanced. -/
def xorTail (magic : Nat) : Nat → List Nat → List Nat
  | _, [] => []
  | i, b :: rest => (b ^^^ leByte magic i) :: xorTail magic (i + 1) rest

/-- Transform one chunk: whole 32-bit words XOR successive emissions, the
remainder XORs the bytes of the final state.  Returns the transformed bytes
and the state after the chunk. -/
def codecChunk (magic : Nat) : List Nat → List Nat × Nat
  | b0 :: b1 :: b2 :: b3 :: rest =>
    let w := fromLeBytes4 b0 b1 b2 b3 ^^^ magic
    let r := codecChunk (advance magic) rest
    (toLeBytes4 w ++ r.1, r.2)
  | l => (xorTail magic 0 l, magic)

/-- Number of bytes processed in one iteration of the `run_codec` loop:
the buffer is capped at `limit.min(size)` and `read_full` then delivers at
most the bytes the source still has. -/
def chunkLen (limit size : Nat) (input : List Nat) : Nat :=
  min (min limit size) input.length

/-- The `run_codec` loop over a byte-list source: as long as a chunk is
nonempty, transform it and continue with the reduced `size` and the rest of
the source; a 0-byte read ends the loop.  The first argument counts loop
iterations: every iteration that recurses removes a nonempty chunk from
`size`, so `size` iterations always reach the loop's own exit and the
`0` case below is never what stops it (see `runCodecAux_eq_global`). -/
def runCodecAux (limit : Nat) : Nat → Nat → Nat → List Nat → List Nat
  | 0, _, _, _ => []
  | fuel + 1, magic, size, input =>
    if chunkLen limit size input = 0 then []
    else
      (codecChunk magic (input.take (chunkLen limit size input))).1 ++
        runCodecAux limit fuel
          (codecChunk magic (input.take (chunkLen limit size input))).2
          (size - chunkLen limit size input) (input.drop (chunkLen limit size input))

/-- `run_codec(buf, input, output, size, magic)` with buffer length `limit`:
the bytes written to `output`. -/
def runCodec (limit magic size : Nat) (input : List Nat) : List Nat :=
  runCodecAux limit size magic size input

theorem xorTail_length (magic i : Nat) (l : List Nat) :
    (xorTail magic i l).length = l.length := by
  induction l generalizing i with
  | nil => rfl
  | cons b rest ih => simp [xorTail, ih]

theorem xorTail_xorTail (magic i : Nat) (l : List Nat) :
    xorTail magic i (xorTail magic i l) = l := by
  induction l generalizing i with
  | nil => rfl
  | cons b rest ih => simp [xorTail, xor_xor_cancel, ih]

theorem codecChunk_length (magic : Nat) (l : List Nat) :
    (codecChunk magic l).1.length = l.length := by
  rcases l with _ | ⟨a0, _ | ⟨a1, _ | ⟨a2, _ | ⟨a3, rest⟩⟩⟩⟩
  · rfl
  · simp [codecChunk, xorTail]
  · simp [codecChunk, xorTail]
  · simp [codecChunk, xorTail]
  · have ih := codecChunk_length (advance magic) rest
    simp only [codecChunk, toLeBytes4, List.length_append, List.length_cons,
      List.length_nil, ih]
    omega
termination_by l.length

theorem codecChunk_snd_eq (magic : Nat) (l : List Nat) :
    (codecChunk magic l).2 = advanceIter (l.length / 4) magic := by
  rcases l with _ | ⟨a0, _ | ⟨a1, _ | ⟨a2, _ | ⟨a3, rest⟩⟩⟩⟩
  · rfl
  · simp [codecChunk, advanceIter]
  · simp [codecChunk, advanceIter]
  · simp [codecChunk, advanceIter]
  · have ih := codecChunk_snd_eq (advance magic) rest
    simp only [codecChunk, List.length_cons, ih]
    have h4 : (rest.length + 1 + 1 + 1 + 1) / 4 = 1 + rest.length / 4 := by omega
    rw [h4]
    have := advanceIter_add 1 (rest.length / 4) magic
    simp only [advanceIter] at this
    exact this.symm
termination_by l.length

/-- The involution at chunk level: running a chunk through the cipher twice
with the same starting state restores the bytes, and both runs end in the same
state. -/
theorem codecChunk_codecChunk_aux (n : Nat) :
    ∀ (magic : Nat) (l : List Nat), l.length ≤ n → magic < U32 → (∀ b ∈ l, b < 256) →
      codecChunk magic (codecChunk magic l).1 = (l, (codecChunk magic l).2) := by
  induction n with
  | zero =>
    intro magic l hl _ _
    have : l = [] := List.length_eq_zero.mp (by omega)
    subst this
    rfl
  | succ n ih =>
    intro magic l hl hm hb
    rcases l with _ | ⟨a0, _ | ⟨a1, _ | ⟨a2, _ | ⟨a3, rest⟩⟩⟩⟩
    · rfl
    · simp [codecChunk, xorTail, xor_xor_cancel]
    · simp [codecChunk, xorTail, xor_xor_cancel]
    · simp [codecChunk, xorTail, xor_xor_cancel]
    · have hb0 : a0 < 256 := hb a0 (by simp)
      have hb1 : a1 < 256 := hb a1 (by simp)
      have hb2 : a2 < 256 := hb a2 (by simp)
      have hb3 : a3 < 256 := hb a3 (by simp)
      have hw : fromLeBytes4 a0 a1 a2 a3 < U32 := fromLeBytes4_lt a0 a1 a2 a3 hb0 hb1 hb2 hb3
      have hxw : fromLeBytes4 a0 a1 a2 a3 ^^^ magic < U32 := xor_lt_U32 _ _ hw hm
      have hrest : rest.length ≤ n := by
        simp only [List.length_cons] at hl
        omega
      have hih := ih (advance magic) rest hrest (advance_lt magic)
        (fun b h => hb b (by simp [h]))
      have hfle := fromLeBytes4_toLeBytes4 _ hxw
      simp only [codecChunk, toLeBytes4, List.cons_append, List.nil_append]
      simp only [List.append_eq, List.nil_append]
      rw [hih]
      rw [hfle, xor_xor_cancel]
      have h0 : fromLeBytes4 a0 a1 a2 a3 % 256 = a0 := by simp only [fromLeBytes4]; omega
      have h1 : fromLeBytes4 a0 a1 a2 a3 / 256 % 256 = a1 := by
        simp only [fromLeBytes4]; omega
      have h2 : fromLeBytes4 a0 a1 a2 a3 / 65536 % 256 = a2 := by
        simp only [fromLeBytes4]; omega
      have h3 : fromLeBytes4 a0 a1 a2 a3 / 16777216 % 256 = a3 := by
        simp only [fromLeBytes4]; omega
      rw [h0, h1, h2, h3]

theorem codecChunk_codecChunk (magic : Nat) (l : List Nat) (hm : magic < U32)
    (hb : ∀ b ∈ l, b < 256) :
    codecChunk magic (codecChunk magic l).1 = (l, (codecChunk magic l).2) :=
  codecChunk_codecChunk_aux l.length magic l (Nat.le_refl _) hm hb

/-- Splitting a chunk at a word boundary: the cipher distributes over the
split, threading the state. -/
theorem codecChunk_append (magic : Nat) (a b : List Nat) (h : a.length % 4 = 0) :
    codecChunk magic (a ++ b) =
      ((codecChunk magic a).1 ++ (codecChunk (codecChunk magic a).2 b).1,
        (codecChunk (codecChunk magic a).2 b).2) := by
  obtain ⟨k, hk⟩ : ∃ k, a.length = 4 * k := ⟨a.length / 4, by omega⟩
  clear h
  induction k generalizing a magic with
  | zero =>
    have : a = [] := List.length_eq_zero.mp (by omega)
    subst this
    simp [codecChunk, xorTail]
  | succ k ih =>
    rcases a with _ | ⟨a0, _ | ⟨a1, _ | ⟨a2, _ | ⟨a3, rest⟩⟩⟩⟩ <;>
      simp only [List.length_nil, List.length_cons] at hk
    · omega
    · omega
    · omega
    · omega
    · have hrest : rest.length = 4 * k := by omega
      have hih := ih (advance magic) rest hrest
      simp only [List.cons_append, codecChunk, List.append_eq]
      rw [hih]
      simp [List.append_assoc]

/-- The loop transforms exactly the first `min size (source length)` bytes,
computing the same bytes as a single chunk pass — the word boundaries fall at
multiples of 4 regardless of the buffer size — provided the iteration budget
covers `size` (each pass through the loop consumes at least one byte of
`size`, so the budget `size` used by `runCodec` always does). -/
theorem runCodecAux_eq_global (limit : Nat) (h4 : limit % 4 = 0) (h0 : 0 < limit) :
    ∀ (fuel magic size : Nat) (input : List Nat), size ≤ fuel →
      runCodecAux limit fuel magic size input =
        (codecChunk magic (input.take (min size input.length))).1 := by
  intro fuel
  induction fuel with
  | zero =>
    intro magic size input hle
    have hz : size = 0 := by omega
    subst hz
    simp [runCodecAux, codecChunk, xorTail]
  | succ fuel ih =>
    intro magic size input hle
    rw [runCodecAux]
    by_cases h : chunkLen limit size input = 0
    · rw [if_pos h]
      simp only [chunkLen] at h
      have : min size input.length = 0 := by omega
      rw [this]
      simp [codecChunk, xorTail]
    · rw [if_neg h]
      simp only [chunkLen] at h ⊢
      set r := min (min limit size) input.length with hr
      have hrle : r ≤ size := by omega
      have hrlen : r ≤ input.length := by omega
      have hrpos : 0 < r := by omega
      rw [ih _ (size - r) _ (by omega)]
      by_cases hcase : r = limit
      · -- full buffer: the chunk length is a multiple of 4
        have hmod : (input.take r).length % 4 = 0 := by
          rw [List.length_take, Nat.min_eq_left hrlen, hcase]
          exact h4
        have hsplit : min size input.length = r + min (size - r) (input.drop r).length := by
          rw [List.length_drop]
          omega
        rw [hsplit, List.take_add, codecChunk_append magic _ _ hmod]
      · -- short final chunk: everything remaining was consumed
        have hreq : min size input.length = r := by omega
        have hdrop : min (size - r) (input.drop r).length = 0 := by
          rw [List.length_drop]
          omega
        rw [hdrop, hreq]
        simp [codecChunk, xorTail]

theorem runCodec_eq_global (limit magic size : Nat) (input : List Nat)
    (h4 : limit % 4 = 0) (h0 : 0 < limit) :
    runCodec limit magic size input =
      (codecChunk magic (input.take (min size input.length))).1 :=
  runCodecAux_eq_global limit h4 h0 size magic size input (Nat.le_refl _)

theorem runCodec_length (limit magic size : Nat) (input : List Nat)
    (h4 : limit % 4 = 0) (h0 : 0 < limit) :
    (runCodec limit magic size input).length = min size input.length := by
  rw [runCodec_eq_global limit magic size input h4 h0, codecChunk_length,
    List.length_take]
  omega

/-!
## Data model and I/O primitives
-/

/-- One archive entry.  `name` holds the UTF-8 bytes of the Rust `String`
(each byte `< 256`); `size`, `offset` and `magic` are the `u32` fields. -/
structure RGSSArchiveEntry where
  name : List Nat
  size : Nat
  offset : Nat
  magic : Nat
deriving DecidableEq, Repr

instance : Inhabited RGSSArchiveEntry := ⟨⟨[], 0, 0, 0⟩⟩

/-- The archive: version byte, entry list and (for version 3) the base seed
read from or written to the table. -/
structure RGSSArchive where
  version : Nat
  entries : List RGSSArchiveEntry
  magic : Nat
deriving DecidableEq, Repr

/-- The error values the source produces: `InvalidData`-kind errors with the
messages `"Invalid header"` and `"Unsupported version"`, and the
`UnexpectedEof`-kind error produced by a failing `read_exact`. -/
inductive IOError where
  | invalidHeader
  | unsupportedVersion
  | unexpectedEof
deriving DecidableEq, Repr

/-- Outcome of a write operation: success, a recoverable `io::Error`, or a
panic (`checked_add(..).unwrap()` / `try_into().unwrap()` aborting). -/
inductive PResult (α : Type) where
  | ok : α → PResult α
  | err : IOError → PResult α
  | panic : PResult α
deriving DecidableEq, Repr

instance {ε α : Type} [DecidableEq ε] [DecidableEq α] : DecidableEq (Except ε α)
  | .error e, .error e' =>
    if h : e = e' then .isTrue (by rw [h])
    else .isFalse (by intro hc; cases hc; exact h rfl)
  | .error _, .ok _ => .isFalse (by intro hc; cases hc)
  | .ok _, .error _ => .isFalse (by intro hc; cases hc)
  | .ok a, .ok b =>
    if h : a = b then .isTrue (by rw [h])
    else .isFalse (by intro hc; cases hc; exact h rfl)

/-- The little-endian `u32` at position `pos` of the file; meaningful when
`pos + 4 ≤ file.length`, which is exactly when `read_u32_le` succeeds. -/
def readU32D (file : List Nat) (pos : Nat) : Nat :=
  fromLeBytes4 (file.getD pos 0) (file.getD (pos + 1) 0)
    (file.getD (pos + 2) 0) (file.getD (pos + 3) 0)

/-- `\` is replaced by `/` after decoding a name. -/
def toSlash (b : Nat) : Nat := if b = 92 then 47 else b

/-- `/` is replaced by `\` before encoding a name. -/
def toBackslash (b : Nat) : Nat := if b = 47 then 92 else b

/-- Whether a byte is a UTF-8 continuation byte (`0x80..=0xBF`). -/
def utf8Cont (b : Nat) : Bool := 128 ≤ b && b ≤ 191

/-- Validity of a byte sequence as UTF-8, as checked by
`String::from_utf8` (RFC 3629: no surrogates, no overlong forms, max
U+10FFFF). -/
def isValidUtf8 : List Nat → Bool
  | [] => true
  | b :: l =>
    if b ≤ 127 then isValidUtf8 l
    else if 194 ≤ b && b ≤ 223 then
      match l with
      | c1 :: l1 => utf8Cont c1 && isValidUtf8 l1
      | _ => false
    else if b = 224 then
      match l with
      | c1 :: c2 :: l2 => (160 ≤ c1 && c1 ≤ 191) && utf8Cont c2 && isValidUtf8 l2
      | _ => false
    else if (225 ≤ b && b ≤ 236) || b = 238 || b = 239 then
      match l with
      | c1 :: c2 :: l2 => utf8Cont c1 && utf8Cont c2 && isValidUtf8 l2
      | _ => false
    else if b = 237 then
      match l with
      | c1 :: c2 :: l2 => (128 ≤ c1 && c1 ≤ 159) && utf8Cont c2 && isValidUtf8 l2
      | _ => false
    else if b = 240 then
      match l with
      | c1 :: c2 :: c3 :: l3 =>
        (144 ≤ c1 && c1 ≤ 191) && utf8Cont c2 && utf8Cont c3 && isValidUtf8 l3
      | _ => false
    else if 241 ≤ b && b ≤ 243 then
      match l with
      | c1 :: c2 :: c3 :: l3 =>
        utf8Cont c1 && utf8Cont c2 && utf8Cont c3 && isValidUtf8 l3
      | _ => false
    else if b = 244 then
      match l with
      | c1 :: c2 :: c3 :: l3 =>
        (128 ≤ c1 && c1 ≤ 143) && utf8Cont c2 && utf8Cont c3 && isValidUtf8 l3
      | _ => false
    else false

/-!
## Header (`read_header` / `write_header`)
-/

/-- The six magic bytes, ASCII `"RGSSAD"`. -/
def headerMagic : List Nat := [82, 71, 83, 83, 65, 68]

/-- `read_header`: read 8 bytes; compare the first 6 against `b"RGSSAD"`;
store byte 7 as the version and require it to be in `1..=3`.  Returns the
version on success. -/
def read_header (file : List Nat) : Except IOError Nat :=
  if 8 ≤ file.length then
    if file.take 6 ≠ headerMagic then .error .invalidHeader
    else
      let version := file.getD 7 0
      if 1 ≤ version ∧ version ≤ 3 then .ok version
      else .error .unsupportedVersion
  else .error .unexpectedEof

/-- `write_header`: reject a version outside `1..=3`, otherwise emit
`b"RGSSAD\0"` followed by the version byte. -/
def write_header (version : Nat) : Except IOError (List Nat) :=
  if 1 ≤ version ∧ version ≤ 3 then .ok (headerMagic ++ [0, version])
  else .error .unsupportedVersion

/-!
## Name ciphers
-/

/-- Version 1/2 name cipher: byte `i` is XORed with the low byte of a fresh
`advance_magic` emission (`advance_magic(&mut magic) as u8`).  Returns the
transformed bytes and the state after the last advance.  XOR makes the same
function serve `read_entries_rgssad` and `write_entries_rgssad`. -/
def codecNameRolling (magic : Nat) : List Nat → List Nat × Nat
  | [] => ([], magic)
  | b :: rest =>
    let r := codecNameRolling (advance magic) rest
    ((b ^^^ magic % 256) :: r.1, r.2)

/-- Version 3 name cipher: byte `i` is XORed with `xor.to_le_bytes()[i % 4]`;
the mask never advances.  `i` is the running byte index. -/
def codecNameFixed (xor i : Nat) : List Nat → List Nat
  | [] => []
  | b :: rest => (b ^^^ leByte xor (i % 4)) :: codecNameFixed xor (i + 1) rest

theorem codecNameRolling_length (magic : Nat) (l : List Nat) :
    (codecNameRolling magic l).1.length = l.length := by
  induction l generalizing magic with
  | nil => rfl
  | cons b rest ih => simp [codecNameRolling, ih]

theorem codecNameRolling_snd (magic : Nat) (l : List Nat) :
    (codecNameRolling magic l).2 = advanceIter l.length magic := by
  induction l generalizing magic with
  | nil => rfl
  | cons b rest ih => simp [codecNameRolling, ih, advanceIter]

theorem codecNameRolling_codecNameRolling (magic : Nat) (l : List Nat) :
    (codecNameRolling magic (codecNameRolling magic l).1).1 = l := by
  induction l generalizing magic with
  | nil => rfl
  | cons b rest ih => simp [codecNameRolling, xor_xor_cancel, ih]

theorem codecNameFixed_length (xor i : Nat) (l : List Nat) :
    (codecNameFixed xor i l).length = l.length := by
  induction l generalizing i with
  | nil => rfl
  | cons b rest ih => simp [codecNameFixed, ih]

theorem codecNameFixed_codecNameFixed (xor i : Nat) (l : List Nat) :
    codecNameFixed xor i (codecNameFixed xor i l) = l := by
  induction l generalizing i with
  | nil => rfl
  | cons b rest ih => simp [codecNameFixed, xor_xor_cancel, ih]

theorem toSlash_toBackslash (b : Nat) (h : b ≠ 92) : toSlash (toBackslash b) = b := by
  simp only [toSlash, toBackslash]
  split <;> simp_all

/-!
## Version 1/2 table reader (`read_entries_rgssad`)

The reader is modelled from the loop body of `read_entries_rgssad`, as the
list of entries parsed from stream position `pos` with running seed `magic`.
A bounds test `pos + n ≤ file.length` is exactly "this `read_u32_le` /
`read_exact` succeeds" for the byte-list stream.  Failure of a `read_u32_le`
breaks the loop (`Err(_) => break`), producing the entries so far; failure of
the name's `read_exact` is propagated with `?` (an `UnexpectedEof` error); an
invalid UTF-8 name also breaks the loop.  `stream_position()? as u32`
truncates the position to 32 bits for the recorded offset, while the
seek over the payload advances the true (64-bit) position.

On an error return the Rust method leaves the previously pushed entries in
`self.entries` but the caller only sees `Err`; the model accordingly returns
only the error.
-/

def read_entries_rgssad_loop (file : List Nat) :
    Nat → Nat → Nat → Except IOError (List RGSSArchiveEntry)
  | 0, _, _ => .ok []
  | fuel + 1, magic, pos =>
    if pos + 4 ≤ file.length then
      -- name length field, XORed with one advance_magic emission
      let nameLen := readU32D file pos ^^^ magic
      if pos + 4 + nameLen ≤ file.length then
        -- read_exact the raw name, then XOR each byte with a fresh emission
        let dec := codecNameRolling (advance magic) ((file.drop (pos + 4)).take nameLen)
        let name := dec.1.map toSlash
        if isValidUtf8 name then
          if pos + 8 + nameLen ≤ file.length then
            -- size field, XORed with one more emission
            let size := readU32D file (pos + 4 + nameLen) ^^^ dec.2
            match read_entries_rgssad_loop file fuel (advance dec.2)
                (pos + 8 + nameLen + size) with
            | .ok rest =>
              .ok ({ name := name, size := size, offset := (pos + 8 + nameLen) % U32,
                     magic := advance dec.2 } :: rest)
            | .error e => .error e
          else .ok []
        else .ok []
      else .error .unexpectedEof
    else .ok []

/-- `read_entries_rgssad` starts with the running seed `0xDEADCAFE`; in the
source the stream is positioned just after the 8-byte header.  Each parsed
record moves the position forward by at least 8 bytes and the loop exits at
any position past `file.length - 4`, so the iteration budget
`file.length + 1` is never what stops it (every general theorem below only
assumes `file.length + 1 ≤ fuel + pos`, which this budget satisfies for every
starting position). -/
def read_entries_rgssad (file : List Nat) (pos : Nat) :
    Except IOError (List RGSSArchiveEntry) :=
  read_entries_rgssad_loop file (file.length + 1) 3735931646 pos

/-!
## Version 3 table reader (`read_entries_rgss3a`)

One `u32` base seed is read verbatim, the single mask
`xor = base * 9 + 3 (mod 2^32)` is derived from it, and every subsequent
32-bit field of every record is XORed with that same mask; name byte `i` is
XORed with `xor.to_le_bytes()[i % 4]`.  A decoded `offset == 0` terminates
the table. Field-read failures break the loop; only the name `read_exact` is
propagated as an error.
-/

def read_entries_rgss3a_loop (file : List Nat) :
    Nat → Nat → Nat → Except IOError (List RGSSArchiveEntry)
  | 0, _, _ => .ok []
  | fuel + 1, xor, pos =>
    if pos + 4 ≤ file.length then
      let offset := readU32D file pos ^^^ xor
      if offset = 0 then .ok []
      else if pos + 8 ≤ file.length then
        let size := readU32D file (pos + 4) ^^^ xor
        if pos + 12 ≤ file.length then
          let emagic := readU32D file (pos + 8) ^^^ xor
          if pos + 16 ≤ file.length then
            let nameLen := readU32D file (pos + 12) ^^^ xor
            if pos + 16 + nameLen ≤ file.length then
              let name :=
                (codecNameFixed xor 0 ((file.drop (pos + 16)).take nameLen)).map toSlash
              if isValidUtf8 name then
                match read_entries_rgss3a_loop file fuel xor (pos + 16 + nameLen) with
                | .ok rest =>
                  .ok ({ name := name, size := size, offset := offset,
                         magic := emagic } :: rest)
                | .error e => .error e
              else .ok []
            else .error .unexpectedEof
          else .ok []
        else .ok []
      else .ok []
    else .ok []

/-- `read_entries_rgss3a`: read the base seed (propagating a failure with
`?`), derive the mask, then run the record loop.  Returns the base seed
(stored into `self.magic`) with the entries.  Each parsed record moves the
position forward by at least 16 bytes and the loop exits at any position past
`file.length - 4`, so the iteration budget `file.length + 1` is never what
stops it. -/
def read_entries_rgss3a (file : List Nat) (pos : Nat) :
    Except IOError (Nat × List RGSSArchiveEntry) :=
  if pos + 4 ≤ file.length then
    let base := readU32D file pos
    match read_entries_rgss3a_loop file (file.length + 1) ((base * 9 + 3) % U32) (pos + 4) with
    | .ok es => .ok (base, es)
    | .error e => .error e
  else .error .unexpectedEof

/-- `read_entries`: dispatch on the version; entries are pushed onto the
archive's existing list, and version 3 also records the base seed. -/
def read_entries (a : RGSSArchive) (file : List Nat) (pos : Nat) :
    Except IOError RGSSArchive :=
  if a.version = 1 ∨ a.version = 2 then
    match read_entries_rgssad file pos with
    | .ok es => .ok { a with entries := a.entries ++ es }
    | .error e => .error e
  else if a.version = 3 then
    match read_entries_rgss3a file pos with
    | .ok (base, es) => .ok { a with magic := base, entries := a.entries ++ es }
    | .error e => .error e
  else .error .unsupportedVersion

/-!
## Version 1/2 table writer (`write_entries_rgssad`)

The writer keeps a running `u32` offset starting at 8 and the running seed
starting at `0xDEADCAFE`.  Per entry it emits the XORed name-length field,
the `/`→`\`-mapped and XORed name bytes, the XORed size field, then
`entry.size` zero bytes (`w.write_all(&vec![0; entry.size as usize])`), and
records `entry.offset`/`entry.magic`.  `entry.name.len().try_into().unwrap()`
panics for a name of `2^32` bytes or more, and each
`checked_add(..).unwrap()` panics on `u32` overflow; both are modelled as
`PResult.panic`.  Returns the produced bytes and the updated entries.
-/

def write_entries_rgssad_loop (magic offset : Nat) :
    List RGSSArchiveEntry → PResult (List Nat × List RGSSArchiveEntry)
  | [] => .ok ([], [])
  | e :: rest =>
    if e.name.length < U32 then
      let nameLen := e.name.length
      let lenField := toLeBytes4 (nameLen ^^^ magic)
      let nc := codecNameRolling (advance magic) (e.name.map toBackslash)
      let sizeField := toLeBytes4 (e.size ^^^ nc.2)
      if offset + nameLen + 8 < U32 then
        let offset1 := offset + nameLen + 8
        if offset1 + e.size < U32 then
          match write_entries_rgssad_loop (advance nc.2) (offset1 + e.size) rest with
          | .ok (bs, es) =>
            .ok (lenField ++ nc.1 ++ sizeField ++ List.replicate e.size 0 ++ bs,
              { e with offset := offset1, magic := advance nc.2 } :: es)
          | .err er => .err er
          | .panic => .panic
        else .panic
      else .panic
    else .panic

def write_entries_rgssad (entries : List RGSSArchiveEntry) :
    PResult (List Nat × List RGSSArchiveEntry) :=
  write_entries_rgssad_loop 3735931646 8 entries

/-!
## Version 3 table writer (`write_entries_rgss3a`)

First pass: compute the end of the table, `16` plus `name_len + 16` per entry
(checked, panicking on overflow, as does the `try_into().unwrap()` of a
too-long name).  Second pass: assign each entry its offset and accumulate the
sizes (checked).  Then write the base seed verbatim, derive the mask
`xor = base * 9 + 3`, and per entry write the four masked `u32` fields
followed by the `/`→`\`-mapped name XORed with the mask bytes; finally write
`xor` itself as the terminator.
-/

def rgss3aTableEnd (offset : Nat) : List RGSSArchiveEntry → PResult Nat
  | [] => .ok offset
  | e :: rest =>
    if e.name.length < U32 ∧ offset + e.name.length + 16 < U32 then
      rgss3aTableEnd (offset + e.name.length + 16) rest
    else .panic

def rgss3aAssignOffsets (offset : Nat) :
    List RGSSArchiveEntry → PResult (List RGSSArchiveEntry)
  | [] => .ok []
  | e :: rest =>
    if offset + e.size < U32 then
      match rgss3aAssignOffsets (offset + e.size) rest with
      | .ok es => .ok ({ e with offset := offset } :: es)
      | .err er => .err er
      | .panic => .panic
    else .panic

/-- The serialized records of the version 3 table: for each entry the four
`u32` fields XORed with the mask (`entry.name.len() as u32` wraps), then the
name bytes through the fixed-mask cipher. -/
def rgss3aRecords (xor : Nat) : List RGSSArchiveEntry → List Nat
  | [] => []
  | e :: rest =>
    toLeBytes4 (e.offset ^^^ xor) ++ toLeBytes4 (e.size ^^^ xor) ++
      toLeBytes4 (e.magic ^^^ xor) ++ toLeBytes4 (e.name.length % U32 ^^^ xor) ++
      codecNameFixed xor 0 (e.name.map toBackslash) ++ rgss3aRecords xor rest

def write_entries_rgss3a (baseMagic : Nat) (entries : List RGSSArchiveEntry) :
    PResult (List Nat × List RGSSArchiveEntry) :=
  match rgss3aTableEnd 16 entries with
  | .ok tableEnd =>
    match rgss3aAssignOffsets tableEnd entries with
    | .ok es =>
      let xor := (baseMagic * 9 + 3) % U32
      .ok (toLeBytes4 baseMagic ++ rgss3aRecords xor es ++ toLeBytes4 xor, es)
    | .err er => .err er
    | .panic => .panic
  | .err er => .err er
  | .panic => .panic

/-- `write_entries`: dispatch on the version. -/
def write_entries (a : RGSSArchive) : PResult (List Nat × RGSSArchive) :=
  if a.version = 1 ∨ a.version = 2 then
    match write_entries_rgssad a.entries with
    | .ok (bs, es) => .ok (bs, { a with entries := es })
    | .err er => .err er
    | .panic => .panic
  else if a.version = 3 then
    match write_entries_rgss3a a.magic a.entries with
    | .ok (bs, es) => .ok (bs, { a with entries := es })
    | .err er => .err er
    | .panic => .panic
  else .err .unsupportedVersion

/-!
## Per-entry payload transfer (`RGSSArchiveEntry::read` / `::write`) and the
pack/unpack pipelines

`RGSSArchiveEntry::read` seeks the archive to `entry.offset` and streams
`entry.size` bytes through `run_codec` keyed by `entry.magic`.
`RGSSArchiveEntry::write` seeks the *output* to `entry.offset` and streams
the raw payload through the same cipher into place.  `writeAt` models
seek-then-`write_all` on a file: bytes before `pos` are kept (zero-filled if
the file is shorter), the data overwrites in place, and any bytes after the
written region survive.
-/

def writeAt (file : List Nat) (pos : Nat) (data : List Nat) : List Nat :=
  file.take pos ++ List.replicate (pos - file.length) 0 ++ data ++
    file.drop (pos + data.length)

/-- `RGSSArchiveEntry::read` with buffer length `limit`: the decoded payload
bytes written to the sink. -/
def entryRead (limit : Nat) (e : RGSSArchiveEntry) (file : List Nat) : List Nat :=
  runCodec limit e.magic e.size (file.drop e.offset)

/-- `RGSSArchiveEntry::write` with buffer length `limit`: the archive file
after seeking to `e.offset` and writing the encoded payload there. -/
def entryWrite (limit : Nat) (e : RGSSArchiveEntry) (payload : List Nat)
    (file : List Nat) : List Nat :=
  writeAt file e.offset (runCodec limit e.magic e.size payload)

/-- Write each entry's payload in turn (`RGSSArchiveEntry::write` per entry),
in table order. -/
def writePayloads (limit : Nat) (file : List Nat) :
    List (RGSSArchiveEntry × List Nat) → List Nat
  | [] => file
  | (e, p) :: rest => writePayloads limit (entryWrite limit e p file) rest

/-- The pack pipeline of the specification: `write_header`, `write_entries`,
then one `RGSSArchiveEntry::write` per entry with its payload. -/
def packFile (limit : Nat) (a : RGSSArchive) (payloads : List (List Nat)) :
    PResult (List Nat) :=
  match write_header a.version with
  | .error e => .err e
  | .ok hdr =>
    match write_entries a with
    | .ok (tbl, a1) =>
      .ok (writePayloads limit (hdr ++ tbl) (a1.entries.zip payloads))
    | .err er => .err er
    | .panic => .panic

/-- The unpack pipeline of the specification: `read_header`, `read_entries`
(at position 8, just past the header), then one `RGSSArchiveEntry::read` per
entry; yields each entry's name with its decoded payload. -/
def unpack (limit : Nat) (file : List Nat) :
    Except IOError (List (List Nat × List Nat)) :=
  match read_header file with
  | .error e => .error e
  | .ok version =>
    match read_entries ⟨version, [], 0⟩ file 8 with
    | .error e => .error e
    | .ok a => .ok (a.entries.map fun e => (e.name, entryRead limit e file))

/-!
## Claims about the payload codec and the header
-/

/-- Claim C2: for every starting seed, size and input byte sequence,
applying `run_codec` twice with the same seed and size is the identity on the
bytes processed: the codec is its own inverse, so encoding then decoding
reproduces the original payload exactly.  (`run_codec` processes
`min size (source length)` bytes, so the sequence fed back in is reproduced
whenever the source holds at most `size` bytes — in particular for a payload
of exactly `size` bytes; the buffer length is a positive multiple of 4, as
asserted by the source.) -/
theorem run_codec_involutive (limit magic size : Nat) (input : List Nat)
    (h4 : limit % 4 = 0) (h0 : 0 < limit) (hm : magic < U32)
    (hb : ∀ b ∈ input, b < 256) (hsize : input.length ≤ size) :
    runCodec limit magic size (runCodec limit magic size input) = input := by
  rw [runCodec_eq_global limit magic size input h4 h0]
  rw [runCodec_eq_global limit magic size _ h4 h0]
  have h1 : min size input.length = input.length := Nat.min_eq_right hsize
  have h2 : (codecChunk magic input).1.length = input.length := codecChunk_length _ _
  rw [h1, List.take_length, h2, h1, ← h2, List.take_length]
  rw [codecChunk_codecChunk magic input hm hb]

theorem run_codec_involutive_witness :
    runCodec 4 3735931646 5 (runCodec 4 3735931646 5 [10, 20, 30, 40, 50]) =
      [10, 20, 30, 40, 50] :=
  run_codec_involutive 4 3735931646 5 [10, 20, 30, 40, 50] (by decide) (by decide)
    (by decide) (by decide) (by decide)

/-- Claim C8: the payload codec ends without error when the source is
exhausted before `size` bytes have been processed — it produces exactly the
available bytes (the `read == 0` test breaks the loop, and the pure model's
returning a value is the embedding of `Ok(())`) — and with `size = 0` it
writes nothing to the sink. -/
theorem run_codec_short_source (limit magic size : Nat) (input : List Nat)
    (h4 : limit % 4 = 0) (h0 : 0 < limit) (hshort : input.length < size) :
    (runCodec limit magic size input).length = input.length ∧
      runCodec limit magic 0 input = [] := by
  constructor
  · rw [runCodec_length limit magic size input h4 h0]
    omega
  · rfl

theorem run_codec_short_source_witness :
    (runCodec 8 3735931646 7 [1, 2, 3]).length = 3 ∧
      runCodec 8 3735931646 0 [1, 2, 3] = [] :=
  run_codec_short_source 8 3735931646 7 [1, 2, 3] (by decide) (by decide) (by decide)

/-- Claim C7: for an 8-byte input, `read_header` fails with the
`InvalidHeader` error exactly when the first six bytes are not `"RGSSAD"`,
fails with `UnsupportedVersion` exactly when the magic matches but byte 7 is
not in `{1,2,3}`, and otherwise succeeds returning byte 7 as the version. -/
theorem read_header_cases (file : List Nat) (h8 : file.length = 8) :
    (read_header file = .error .invalidHeader ↔ file.take 6 ≠ headerMagic) ∧
    (read_header file = .error .unsupportedVersion ↔
      file.take 6 = headerMagic ∧ ¬(1 ≤ file.getD 7 0 ∧ file.getD 7 0 ≤ 3)) ∧
    (file.take 6 = headerMagic ∧ 1 ≤ file.getD 7 0 ∧ file.getD 7 0 ≤ 3 →
      read_header file = .ok (file.getD 7 0)) := by
  simp only [read_header]
  rw [if_pos (by omega : 8 ≤ file.length)]
  by_cases hmag : file.take 6 = headerMagic
  · rw [if_neg (by simp [hmag])]
    by_cases hver : 1 ≤ file.getD 7 0 ∧ file.getD 7 0 ≤ 3
    · rw [if_pos hver]
      refine ⟨⟨fun h => ?_, fun h => absurd hmag h⟩,
        ⟨fun h => ?_, fun h => absurd hver h.2⟩, fun _ => rfl⟩
      · simp at h
      · simp at h
    · rw [if_neg hver]
      refine ⟨⟨fun h => ?_, fun h => absurd hmag h⟩,
        ⟨fun _ => ⟨hmag, hver⟩, fun _ => rfl⟩,
        fun h => absurd ⟨h.2.1, h.2.2⟩ hver⟩
      simp at h
  · rw [if_pos hmag]
    refine ⟨⟨fun _ => hmag, fun _ => rfl⟩,
      ⟨fun h => ?_, fun h => absurd h.1 hmag⟩, fun h => absurd h.1 hmag⟩
    simp at h

theorem read_header_cases_witness :
    read_header [82, 71, 83, 83, 65, 68, 0, 9] = .error .unsupportedVersion :=
  ((read_header_cases [82, 71, 83, 83, 65, 68, 0, 9] (by decide)).2.1).mpr (by decide)

/-- Claim C10: `read_header` never inspects byte 6 (the byte the format fixes
as zero): any 8-byte input starting with `"RGSSAD"` whose byte 7 is in
`{1,2,3}` parses successfully, whatever byte 6 holds. -/
theorem read_header_ignores_byte6 (b6 v : Nat) (h1 : 1 ≤ v) (h3 : v ≤ 3) :
    read_header (headerMagic ++ [b6, v]) = .ok v := by
  simp [read_header, headerMagic, h1, h3]

theorem read_header_ignores_byte6_witness :
    read_header (headerMagic ++ [255, 2]) = .ok 2 :=
  read_header_ignores_byte6 255 2 (by decide) (by decide)

/-!
## Error kinds of table parsing (claim C6)
-/

theorem rgssad_loop_error (file : List Nat) :
    ∀ (fuel magic pos : Nat) (e : IOError),
      read_entries_rgssad_loop file fuel magic pos = .error e →
        e = .unexpectedEof := by
  intro fuel
  induction fuel with
  | zero =>
    intro magic pos e h
    simp [read_entries_rgssad_loop] at h
  | succ fuel ih =>
    intro magic pos e h
    simp only [read_entries_rgssad_loop] at h
    split at h
    · split at h
      · split at h
        · split at h
          · split at h
            · simp at h
            · rename_i e' heq
              injection h with h'
              subst h'
              exact ih _ _ e' heq
          · simp at h
        · simp at h
      · injection h with h'
        exact h'.symm
    · simp at h

theorem rgss3a_loop_error (file : List Nat) :
    ∀ (fuel xor pos : Nat) (e : IOError),
      read_entries_rgss3a_loop file fuel xor pos = .error e →
        e = .unexpectedEof := by
  intro fuel
  induction fuel with
  | zero =>
    intro xor pos e h
    simp [read_entries_rgss3a_loop] at h
  | succ fuel ih =>
    intro xor pos e h
    simp only [read_entries_rgss3a_loop] at h
    split at h
    · split at h
      · simp at h
      · split at h
        · split at h
          · split at h
            · split at h
              · split at h
                · split at h
                  · simp at h
                  · rename_i e' heq
                    injection h with h'
                    subst h'
                    exact ih _ _ e' heq
                · simp at h
              · injection h with h'
                exact h'.symm
            · simp at h
          · simp at h
        · simp at h
    · simp at h

theorem rgss3a_error (file : List Nat) (pos : Nat) (e : IOError)
    (h : read_entries_rgss3a file pos = .error e) : e = .unexpectedEof := by
  simp only [read_entries_rgss3a] at h
  split at h
  · split at h
    · simp at h
    · rename_i e' heq
      injection h with h'
      subst h'
      exact rgss3a_loop_error file _ _ _ e' heq
  · injection h with h'
    exact h'.symm

/-- Claim C6, corrected.  Table parsing treats a failed read at any 32-bit
field boundary — the version 1/2 name-length and size fields, and the
version 3 offset, size, seed and name-length fields, including mid-record
after a version 3 offset has been confirmed nonzero — and a non-UTF-8 name
as a normal, non-error end of table.  The only errors either table reader
surfaces are `UnexpectedEof` (from the name `read_exact`, or from reading the
version 3 base seed), never `InvalidData`. -/
theorem table_parse_error_kinds :
    (∀ (file : List Nat) (fuel magic pos : Nat) (e : IOError),
        read_entries_rgssad_loop file fuel magic pos = .error e →
          e = .unexpectedEof) ∧
    (∀ (file : List Nat) (pos : Nat) (e : IOError),
        read_entries_rgss3a file pos = .error e → e = .unexpectedEof) ∧
    (∀ (file : List Nat) (fuel xor pos : Nat),
        pos + 4 ≤ file.length → file.length < pos + 8 →
        readU32D file pos ^^^ xor ≠ 0 →
        read_entries_rgss3a_loop file (fuel + 1) xor pos = .ok []) := by
  refine ⟨fun file fuel magic pos e h => rgssad_loop_error file fuel magic pos e h,
    fun file pos e h => rgss3a_error file pos e h,
    fun file fuel xor pos h4 h8 hnz => ?_⟩
  simp only [read_entries_rgss3a_loop]
  rw [if_pos h4, if_neg hnz, if_neg (by omega : ¬pos + 8 ≤ file.length)]

/-- Witness for C6: a version 1/2 stream whose name bytes are missing errors
with `UnexpectedEof`; an empty version 3 stream errors with `UnexpectedEof`
at the base seed; and a version 3 stream that ends right after a record's
nonzero decoded offset parses successfully as an empty table. -/
theorem table_parse_error_kinds_witness :
    IOError.unexpectedEof = IOError.unexpectedEof ∧
    IOError.unexpectedEof = IOError.unexpectedEof ∧
    read_entries_rgss3a_loop [0, 0, 0, 0, 0, 0, 0, 0] 9 3 4 = .ok [] :=
  ⟨table_parse_error_kinds.1 [255, 255, 255, 255] 5 0 0 .unexpectedEof (by decide),
    table_parse_error_kinds.2.1 [] 0 .unexpectedEof (by decide),
    table_parse_error_kinds.2.2 [0, 0, 0, 0, 0, 0, 0, 0] 8 3 4 (by decide) (by decide)
      (by decide)⟩

/-- Counterexample to C6 as stated: the claim says a read failure inside a
record already known to be well-formed — after a version 3 record's decoded
offset is confirmed nonzero — is surfaced as an `InvalidData` error.  On the
8-byte input below the base seed is 0 (mask 3), the record's offset field
decodes to `0 ^^^ 3 = 3 ≠ 0`, and the following size-field read fails — yet
parsing returns `Ok` with an empty table rather than any error. -/
theorem table_parse_error_kinds_cex :
    read_entries_rgss3a [0, 0, 0, 0, 0, 0, 0, 0] 0 = .ok (0, []) := by
  decide

/-!
## Seed continuity and offsets in version 1/2 decoding (claim C4)
-/

theorem rgssad_loop_fields (file : List Nat) :
    ∀ (fuel magic pos : Nat) (es : List RGSSArchiveEntry),
      read_entries_rgssad_loop file fuel magic pos = .ok es →
      ∀ k, k < es.length →
        (es.getD k default).magic =
          advanceIter (((es.take (k + 1)).map (fun e => 2 + e.name.length)).sum) magic ∧
        (es.getD k default).offset =
          (pos + ((es.take k).map (fun e => 8 + e.name.length + e.size)).sum +
            8 + (es.getD k default).name.length) % U32 := by
  intro fuel
  induction fuel with
  | zero =>
    intro magic pos es h k hk
    simp only [read_entries_rgssad_loop] at h
    injection h with h'
    subst h'
    simp at hk
  | succ fuel ih =>
    intro magic pos es h k hk
    simp only [read_entries_rgssad_loop] at h
    split at h
    case isFalse =>
      injection h with h'
      subst h'
      simp at hk
    case isTrue h4 =>
      split at h
      case isFalse => simp at h
      case isTrue hn =>
        split at h
        case isFalse =>
          injection h with h'
          subst h'
          simp at hk
        case isTrue hu =>
          split at h
          case isFalse =>
            injection h with h'
            subst h'
            simp at hk
          case isTrue hs =>
            split at h
            case h_2 => simp at h
            case h_1 rest heq =>
              injection h with h'
              subst h'
              -- the parsed name has exactly the decoded length
              have hlen : ((file.drop (pos + 4)).take (readU32D file pos ^^^ magic)).length
                  = readU32D file pos ^^^ magic := by
                rw [List.length_take, List.length_drop]
                omega
              have hname :
                  ((codecNameRolling (advance magic)
                      ((file.drop (pos + 4)).take (readU32D file pos ^^^ magic))).1.map
                    toSlash).length = readU32D file pos ^^^ magic := by
                rw [List.length_map, codecNameRolling_length, hlen]
              have hsnd : (codecNameRolling (advance magic)
                    ((file.drop (pos + 4)).take (readU32D file pos ^^^ magic))).2
                  = advanceIter (readU32D file pos ^^^ magic) (advance magic) := by
                rw [codecNameRolling_snd, hlen]
              have hmg : advance (codecNameRolling (advance magic)
                    ((file.drop (pos + 4)).take (readU32D file pos ^^^ magic))).2
                  = advanceIter ((readU32D file pos ^^^ magic) + 2) magic := by
                rw [hsnd, advanceIter_shift, ← advanceIter_succ]
              rcases k with _ | k
              · refine ⟨?_, ?_⟩
                · simp only [List.take_succ_cons, List.take_zero, List.map_cons,
                    List.map_nil, List.sum_cons, List.sum_nil, List.getD_cons_zero]
                  rw [hmg]
                  exact advanceIter_congr _ _ _ (by omega)
                · simp only [List.take_zero, List.map_nil, List.sum_nil,
                    List.getD_cons_zero]
                  simp only [U32]
                  omega
              · have hrest := ih _ _ rest heq k
                  (by simp only [List.length_cons] at hk; omega)
                simp only [List.getD_cons_succ, List.take_succ_cons, List.map_cons,
                  List.sum_cons]
                refine ⟨?_, ?_⟩
                · rw [hrest.1, hmg, ← advanceIter_add]
                  exact advanceIter_congr _ _ _ (by omega)
                · rw [hrest.2]
                  simp only [U32]
                  omega

/-- Claim C4: in version 1/2 table decoding the running seed starts at
`0xDEADCAFE` and advances exactly `1 + name_length + 1` times per record (one
advance for the length field, one per name byte, one for the size field):
the seed recorded for entry `k` is the state after
`Σ_{j ≤ k} (2 + name_length_j)` advances, and entry `k`'s recorded offset is
the stream position immediately after its size field — the start position
plus all earlier records (`8 + name_length + size` bytes each) plus this
record's `8 + name_length` header bytes (truncated to `u32`, as by
`stream_position()? as u32`). -/
theorem rolling_seed_continuity (file : List Nat) (pos : Nat)
    (es : List RGSSArchiveEntry)
    (h : read_entries_rgssad file pos = .ok es) (k : Nat) (hk : k < es.length) :
    (es.getD k default).magic =
      advanceIter (((es.take (k + 1)).map (fun e => 2 + e.name.length)).sum)
        3735931646 ∧
    (es.getD k default).offset =
      (pos + ((es.take k).map (fun e => 8 + e.name.length + e.size)).sum +
        8 + (es.getD k default).name.length) % U32 :=
  rgssad_loop_fields file (file.length + 1) 3735931646 pos es h k hk

theorem rolling_seed_continuity_witness :
    (([⟨[], 0, 16, 2672024246⟩, ⟨[97], 1, 25, 1676282501⟩] :
        List RGSSArchiveEntry).getD 1 default).magic =
      advanceIter
        (((([⟨[], 0, 16, 2672024246⟩, ⟨[97], 1, 25, 1676282501⟩] :
          List RGSSArchiveEntry).take 2).map (fun e => 2 + e.name.length)).sum)
        3735931646 ∧
    (([⟨[], 0, 16, 2672024246⟩, ⟨[97], 1, 25, 1676282501⟩] :
        List RGSSArchiveEntry).getD 1 default).offset =
      (8 + ((([⟨[], 0, 16, 2672024246⟩, ⟨[97], 1, 25, 1676282501⟩] :
          List RGSSArchiveEntry).take 1).map (fun e => 8 + e.name.length + e.size)).sum +
        8 + (([⟨[], 0, 16, 2672024246⟩, ⟨[97], 1, 25, 1676282501⟩] :
          List RGSSArchiveEntry).getD 1 default).name.length) % U32 :=
  rolling_seed_continuity
    [82, 71, 83, 83, 65, 68, 0, 1, 254, 202, 173, 222, 245, 140, 192, 22,
      183, 218, 67, 159, 156, 239, 220, 252, 123, 128] 8
    [⟨[], 0, 16, 2672024246⟩, ⟨[97], 1, 25, 1676282501⟩] (by decide) 1 (by decide)

/-!
## List slicing helpers
-/

theorem take_append_len (l₁ l₂ : List Nat) : (l₁ ++ l₂).take l₁.length = l₁ := by
  induction l₁ with
  | nil => rfl
  | cons a l ih => simp [ih]

theorem drop_append_len_add (l₁ l₂ : List Nat) (n : Nat) :
    (l₁ ++ l₂).drop (l₁.length + n) = l₂.drop n := by
  induction l₁ with
  | nil => simp
  | cons a l ih => simp [Nat.succ_add, ih]

theorem drop_append_len (l₁ l₂ : List Nat) : (l₁ ++ l₂).drop l₁.length = l₂ := by
  have h := drop_append_len_add l₁ l₂ 0
  simp only [Nat.add_zero, List.drop_zero] at h
  exact h

theorem take_replicate_append (n a : Nat) (l : List Nat) :
    (List.replicate n a ++ l).take n = List.replicate n a := by
  have h := take_append_len (List.replicate n a) l
  rwa [List.length_replicate] at h

theorem getD_append_len_add (l₁ l₂ : List Nat) (n : Nat) :
    (l₁ ++ l₂).getD (l₁.length + n) 0 = l₂.getD n 0 := by
  induction l₁ with
  | nil => simp
  | cons a l ih => simpa [Nat.succ_add] using ih

/-- Reading the `u32` planted at the boundary between `pre` and the rest of
the file recovers the value. -/
theorem readU32D_at (pre : List Nat) (w : Nat) (rest : List Nat) (hw : w < U32) :
    readU32D (pre ++ (toLeBytes4 w ++ rest)) pre.length = w := by
  have g0 := getD_append_len_add pre (toLeBytes4 w ++ rest) 0
  have g1 := getD_append_len_add pre (toLeBytes4 w ++ rest) 1
  have g2 := getD_append_len_add pre (toLeBytes4 w ++ rest) 2
  have g3 := getD_append_len_add pre (toLeBytes4 w ++ rest) 3
  simp only [Nat.add_zero] at g0
  simp only [readU32D, g0, g1, g2, g3]
  simp only [toLeBytes4, List.cons_append, List.nil_append, List.getD_cons_zero,
    List.getD_cons_succ]
  exact fromLeBytes4_toLeBytes4 w hw

/-!
## Overflow behaviour of table serialization (claim C3)

The source guards its offset arithmetic with `checked_add(..).unwrap()` (and
name lengths with `try_into().unwrap()`): on overflow it does not wrap — it
panics.  The lemmas below show the serializers reach `PResult.panic` exactly
when the accumulated offsets leave `u32` range.
-/

theorem write_rgssad_loop_panic (es : List RGSSArchiveEntry) :
    ∀ magic offset, offset < U32 →
      U32 ≤ offset + (es.map fun e => e.name.length + 8 + e.size).sum →
      write_entries_rgssad_loop magic offset es = .panic := by
  induction es with
  | nil =>
    intro magic offset hlt hge
    simp only [List.map_nil, List.sum_nil] at hge
    omega
  | cons e rest ih =>
    intro magic offset hlt hge
    simp only [List.map_cons, List.sum_cons] at hge
    simp only [write_entries_rgssad_loop]
    by_cases h1 : e.name.length < U32
    · rw [if_pos h1]
      by_cases h2 : offset + e.name.length + 8 < U32
      · rw [if_pos h2]
        by_cases h3 : offset + e.name.length + 8 + e.size < U32
        · rw [if_pos h3]
          rw [ih _ (offset + e.name.length + 8 + e.size) h3 (by omega)]
        · rw [if_neg h3]
      · rw [if_neg h2]
    · rw [if_neg h1]

theorem rgss3aTableEnd_panic (es : List RGSSArchiveEntry) :
    ∀ offset, offset < U32 →
      U32 ≤ offset + (es.map fun e => e.name.length + 16).sum →
      rgss3aTableEnd offset es = .panic := by
  induction es with
  | nil =>
    intro offset hlt hge
    simp only [List.map_nil, List.sum_nil] at hge
    omega
  | cons e rest ih =>
    intro offset hlt hge
    simp only [List.map_cons, List.sum_cons] at hge
    simp only [rgss3aTableEnd]
    by_cases h1 : e.name.length < U32 ∧ offset + e.name.length + 16 < U32
    · rw [if_pos h1]
      exact ih (offset + e.name.length + 16) h1.2 (by omega)
    · rw [if_neg h1]

theorem rgss3aTableEnd_ok (es : List RGSSArchiveEntry) :
    ∀ offset, offset + (es.map fun e => e.name.length + 16).sum < U32 →
      rgss3aTableEnd offset es = .ok (offset + (es.map fun e => e.name.length + 16).sum) := by
  induction es with
  | nil =>
    intro offset _
    simp [rgss3aTableEnd]
  | cons e rest ih =>
    intro offset hlt
    simp only [List.map_cons, List.sum_cons] at hlt ⊢
    simp only [rgss3aTableEnd]
    rw [if_pos (by omega)]
    rw [ih (offset + e.name.length + 16) (by omega)]
    congr 1
    omega

theorem rgss3aAssignOffsets_panic (es : List RGSSArchiveEntry) :
    ∀ offset, offset < U32 →
      U32 ≤ offset + (es.map fun e => e.size).sum →
      rgss3aAssignOffsets offset es = .panic := by
  induction es with
  | nil =>
    intro offset hlt hge
    simp only [List.map_nil, List.sum_nil] at hge
    omega
  | cons e rest ih =>
    intro offset hlt hge
    simp only [List.map_cons, List.sum_cons] at hge
    simp only [rgss3aAssignOffsets]
    by_cases h1 : offset + e.size < U32
    · rw [if_pos h1]
      rw [ih (offset + e.size) h1 (by omega)]
    · rw [if_neg h1]

theorem sum_map_split16 (es : List RGSSArchiveEntry) :
    (es.map fun e => e.name.length + 16 + e.size).sum
      = (es.map fun e => e.name.length + 16).sum + (es.map fun e => e.size).sum := by
  induction es with
  | nil => rfl
  | cons e rest ih =>
    simp only [List.map_cons, List.sum_cons, ih]
    omega

/-- Claim C3, corrected.  When the cumulative offset computation overflows
`u32` — `8` plus `name_length + 8 + size` per entry for versions 1/2, `16`
plus `name_length + 16` per entry plus the sizes for version 3 — table
serialization does not wrap silently, but it also does not return a
recoverable `InvalidData` error: its `checked_add(..).unwrap()` calls panic,
modelled by the distinguished outcome `PResult.panic`. -/
theorem write_overflow_panics :
    (∀ es : List RGSSArchiveEntry,
        U32 ≤ 8 + (es.map fun e => e.name.length + 8 + e.size).sum →
        write_entries_rgssad es = .panic) ∧
    (∀ (baseMagic : Nat) (es : List RGSSArchiveEntry),
        U32 ≤ 16 + (es.map fun e => e.name.length + 16 + e.size).sum →
        write_entries_rgss3a baseMagic es = .panic) := by
  constructor
  · intro es hge
    exact write_rgssad_loop_panic es 3735931646 8 (by simp [U32]) (by omega)
  · intro baseMagic es hge
    rw [sum_map_split16] at hge
    simp only [write_entries_rgss3a]
    by_cases h1 : U32 ≤ 16 + (es.map fun e => e.name.length + 16).sum
    · rw [rgss3aTableEnd_panic es 16 (by simp [U32]) h1]
    · rw [rgss3aTableEnd_ok es 16 (by omega)]
      dsimp only
      rw [rgss3aAssignOffsets_panic es (16 + (es.map fun e => e.name.length + 16).sum)
        (by omega) (by omega)]

theorem write_overflow_panics_witness :
    write_entries_rgssad [⟨[], 4294967288, 0, 0⟩] = .panic ∧
      write_entries_rgss3a 5 [⟨[], 4294967264, 0, 0⟩] = .panic :=
  ⟨write_overflow_panics.1 [⟨[], 4294967288, 0, 0⟩] (by decide),
    write_overflow_panics.2 5 [⟨[], 4294967264, 0, 0⟩] (by decide)⟩

/-- Counterexample to C3 as stated: on an entry whose size overflows the
offset accumulator, both serializers panic (the `unwrap` of a failed
`checked_add`); neither returns a recoverable `InvalidData` error. -/
theorem write_overflow_panics_cex :
    write_entries_rgssad [⟨[], 4294967280, 0, 0⟩] = .panic ∧
      write_entries_rgss3a 0 [⟨[], 4294967280, 0, 0⟩] = .panic := by
  constructor
  · decide
  · decide

/-!
## Placeholder payload regions in version 1/2 serialization (claim C9)
-/

theorem write_rgssad_loop_zeros (entries : List RGSSArchiveEntry) :
    ∀ (magic offset : Nat) (bytes : List Nat) (es : List RGSSArchiveEntry),
      write_entries_rgssad_loop magic offset entries = .ok (bytes, es) →
      ∀ k, k < es.length →
        offset ≤ (es.getD k default).offset ∧
        (bytes.drop ((es.getD k default).offset - offset)).take
            ((es.getD k default).size)
          = List.replicate ((es.getD k default).size) 0 := by
  induction entries with
  | nil =>
    intro magic offset bytes es h k hk
    simp only [write_entries_rgssad_loop] at h
    injection h with h'
    cases h'
    simp at hk
  | cons e rest ih =>
    intro magic offset bytes es h k hk
    simp only [write_entries_rgssad_loop] at h
    split at h
    case isFalse => simp at h
    case isTrue h1 =>
      split at h
      case isFalse => simp at h
      case isTrue h2 =>
        split at h
        case isFalse => simp at h
        case isTrue h3 =>
          split at h
          case h_2 => simp at h
          case h_3 => simp at h
          case h_1 bs es1 heq =>
            injection h with h'
            injection h' with hb hes
            subst hb
            subst hes
            rcases k with _ | k
            · constructor
              · simp only [List.getD_cons_zero]
                omega
              · simp only [List.getD_cons_zero]
                have harr : (toLeBytes4 (e.name.length ^^^ magic) ++
                      (codecNameRolling (advance magic) (e.name.map toBackslash)).1 ++
                      toLeBytes4 (e.size ^^^
                        (codecNameRolling (advance magic) (e.name.map toBackslash)).2) ++
                      List.replicate e.size 0 ++ bs)
                    = (toLeBytes4 (e.name.length ^^^ magic) ++
                      (codecNameRolling (advance magic) (e.name.map toBackslash)).1 ++
                      toLeBytes4 (e.size ^^^
                        (codecNameRolling (advance magic) (e.name.map toBackslash)).2)) ++
                      (List.replicate e.size 0 ++ bs) := by
                  simp [List.append_assoc]
                have hlen : (toLeBytes4 (e.name.length ^^^ magic) ++
                      (codecNameRolling (advance magic) (e.name.map toBackslash)).1 ++
                      toLeBytes4 (e.size ^^^
                        (codecNameRolling (advance magic) (e.name.map toBackslash)).2)).length
                    = offset + e.name.length + 8 - offset := by
                  simp only [List.length_append, toLeBytes4, List.length_cons,
                    List.length_nil, codecNameRolling_length, List.length_map]
                  omega
                rw [harr, ← hlen, drop_append_len]
                exact take_replicate_append e.size 0 bs
            · have hrest := ih _ (offset + e.name.length + 8 + e.size) bs es1 heq k
                (by simp only [List.length_cons] at hk; omega)
              simp only [List.getD_cons_succ]
              refine ⟨by omega, ?_⟩
              have harr : (toLeBytes4 (e.name.length ^^^ magic) ++
                    (codecNameRolling (advance magic) (e.name.map toBackslash)).1 ++
                    toLeBytes4 (e.size ^^^
                      (codecNameRolling (advance magic) (e.name.map toBackslash)).2) ++
                    List.replicate e.size 0 ++ bs)
                  = (toLeBytes4 (e.name.length ^^^ magic) ++
                    (codecNameRolling (advance magic) (e.name.map toBackslash)).1 ++
                    toLeBytes4 (e.size ^^^
                      (codecNameRolling (advance magic) (e.name.map toBackslash)).2) ++
                    List.replicate e.size 0) ++ bs := by
                simp [List.append_assoc]
              have hlen : (toLeBytes4 (e.name.length ^^^ magic) ++
                    (codecNameRolling (advance magic) (e.name.map toBackslash)).1 ++
                    toLeBytes4 (e.size ^^^
                      (codecNameRolling (advance magic) (e.name.map toBackslash)).2) ++
                    List.replicate e.size 0).length
                  = offset + e.name.length + 8 + e.size - offset := by
                simp only [List.length_append, toLeBytes4, List.length_cons,
                  List.length_nil, codecNameRolling_length, List.length_map,
                  List.length_replicate]
                omega
              have hsplit : (es1.getD k default).offset - offset
                  = (toLeBytes4 (e.name.length ^^^ magic) ++
                    (codecNameRolling (advance magic) (e.name.map toBackslash)).1 ++
                    toLeBytes4 (e.size ^^^
                      (codecNameRolling (advance magic) (e.name.map toBackslash)).2) ++
                    List.replicate e.size 0).length +
                    ((es1.getD k default).offset - (offset + e.name.length + 8 + e.size)) := by
                rw [hlen]
                omega
              rw [harr, hsplit, drop_append_len_add]
              exact hrest.2

/-- Claim C9: version 1/2 table serialization writes, immediately after each
entry's encoded record (at the entry's recorded offset, taken relative to the
table's 8-byte header base), exactly `entry.size` zero bytes as a placeholder
payload region; the payload bytes themselves are not written by
`write_entries_rgssad` and are supplied later by `RGSSArchiveEntry::write`
seeking to the recorded offset. -/
theorem placeholder_zeros (entries : List RGSSArchiveEntry) (bytes : List Nat)
    (es : List RGSSArchiveEntry)
    (h : write_entries_rgssad entries = .ok (bytes, es)) (k : Nat)
    (hk : k < es.length) :
    8 ≤ (es.getD k default).offset ∧
    (bytes.drop ((es.getD k default).offset - 8)).take ((es.getD k default).size)
      = List.replicate ((es.getD k default).size) 0 :=
  write_rgssad_loop_zeros entries 3735931646 8 bytes es h k hk

theorem placeholder_zeros_witness :
    8 ≤ (([⟨[97], 3, 17, 1524300541⟩] : List RGSSArchiveEntry).getD 0 default).offset ∧
    (([255, 202, 173, 222, 148, 181, 218, 67, 159, 0, 0, 0] : List Nat).drop
        ((([⟨[97], 3, 17, 1524300541⟩] : List RGSSArchiveEntry).getD 0 default).offset - 8)).take
        (([⟨[97], 3, 17, 1524300541⟩] : List RGSSArchiveEntry).getD 0 default).size
      = List.replicate
          (([⟨[97], 3, 17, 1524300541⟩] : List RGSSArchiveEntry).getD 0 default).size 0 :=
  placeholder_zeros [⟨[97], 3, 0, 0⟩]
    [255, 202, 173, 222, 148, 181, 218, 67, 159, 0, 0, 0]
    [⟨[97], 3, 17, 1524300541⟩] (by decide) 0 (by decide)

/-!
## The version 3 reader recovers serialized records (claim C5)
-/

theorem toLeBytes4_length (w : Nat) : (toLeBytes4 w).length = 4 := rfl

theorem rgss3aRecords_length (xor : Nat) (items : List RGSSArchiveEntry) :
    (rgss3aRecords xor items).length
      = (items.map fun e => e.name.length + 16).sum := by
  induction items with
  | nil => rfl
  | cons e rest ih =>
    simp only [rgss3aRecords, List.map_cons, List.sum_cons, List.length_append,
      toLeBytes4_length, codecNameFixed_length, List.length_map, ih]
    omega

theorem name_roundtrip (name : List Nat) (h : ∀ b ∈ name, b ≠ 92) :
    (name.map toBackslash).map toSlash = name := by
  rw [List.map_map]
  have : ∀ b ∈ name, (toSlash ∘ toBackslash) b = id b := by
    intro b hb
    simp only [Function.comp_apply, id_eq]
    exact toSlash_toBackslash b (h b hb)
  rw [List.map_congr_left this, List.map_id]

/-- Reading one serialized version 3 record after prefix `pre` yields the
entry back and continues after it; iterated over the whole table, parsing
stops at the terminator word and never looks at `junk`. -/
theorem rgss3a_loop_reads (items : List RGSSArchiveEntry) :
    ∀ (pre junk : List Nat) (xor fuel : Nat) (file : List Nat),
      file = pre ++ (rgss3aRecords xor items ++ (toLeBytes4 xor ++ junk)) →
      xor < U32 →
      file.length + 1 ≤ fuel + pre.length →
      (∀ e ∈ items, e.offset ≠ 0 ∧ e.offset < U32 ∧ e.size < U32 ∧
        e.magic < U32 ∧ e.name.length < U32 ∧
        isValidUtf8 e.name = true ∧ ∀ b ∈ e.name, b ≠ 92) →
      read_entries_rgss3a_loop file fuel xor pre.length = .ok items := by
  induction items with
  | nil =>
    intro pre junk xor fuel file hfile hxor hfuel hitems
    subst hfile
    simp only [rgss3aRecords, List.nil_append] at hfuel ⊢
    have hlen : (pre ++ (toLeBytes4 xor ++ junk)).length
        = pre.length + 4 + junk.length := by
      simp [toLeBytes4_length]
      omega
    cases fuel with
    | zero => omega
    | succ fuel =>
      simp only [read_entries_rgss3a_loop]
      rw [readU32D_at pre xor junk hxor, Nat.xor_self]
      rw [if_pos (by omega : pre.length + 4 ≤ (pre ++ (toLeBytes4 xor ++ junk)).length)]
      simp
  | cons e rest ih =>
    intro pre junk xor fuel file hfile hxor hfuel hitems
    obtain ⟨hoff0, hofflt, hszlt, hmglt, hnllt, hutf, hnobs⟩ := hitems e (by simp)
    have hrest : ∀ e' ∈ rest, e'.offset ≠ 0 ∧ e'.offset < U32 ∧ e'.size < U32 ∧
        e'.magic < U32 ∧ e'.name.length < U32 ∧
        isValidUtf8 e'.name = true ∧ ∀ b ∈ e'.name, b ≠ 92 := by
      intro e' he'
      exact hitems e' (by simp [he'])
    -- the file decomposed at each of the four field boundaries and the name
    have h1 : file = pre ++ (toLeBytes4 (e.offset ^^^ xor) ++
        (toLeBytes4 (e.size ^^^ xor) ++ (toLeBytes4 (e.magic ^^^ xor) ++
          (toLeBytes4 (e.name.length % U32 ^^^ xor) ++
            (codecNameFixed xor 0 (e.name.map toBackslash) ++
              (rgss3aRecords xor rest ++ (toLeBytes4 xor ++ junk))))))) := by
      rw [hfile]
      simp [rgss3aRecords, List.append_assoc]
    have h2 : file = (pre ++ toLeBytes4 (e.offset ^^^ xor)) ++
        (toLeBytes4 (e.size ^^^ xor) ++ (toLeBytes4 (e.magic ^^^ xor) ++
          (toLeBytes4 (e.name.length % U32 ^^^ xor) ++
            (codecNameFixed xor 0 (e.name.map toBackslash) ++
              (rgss3aRecords xor rest ++ (toLeBytes4 xor ++ junk)))))) := by
      rw [h1]
      simp [List.append_assoc]
    have h3 : file = ((pre ++ toLeBytes4 (e.offset ^^^ xor)) ++
          toLeBytes4 (e.size ^^^ xor)) ++
        (toLeBytes4 (e.magic ^^^ xor) ++
          (toLeBytes4 (e.name.length % U32 ^^^ xor) ++
            (codecNameFixed xor 0 (e.name.map toBackslash) ++
              (rgss3aRecords xor rest ++ (toLeBytes4 xor ++ junk))))) := by
      rw [h1]
      simp [List.append_assoc]
    have h4 : file = (((pre ++ toLeBytes4 (e.offset ^^^ xor)) ++
          toLeBytes4 (e.size ^^^ xor)) ++ toLeBytes4 (e.magic ^^^ xor)) ++
        (toLeBytes4 (e.name.length % U32 ^^^ xor) ++
          (codecNameFixed xor 0 (e.name.map toBackslash) ++
            (rgss3aRecords xor rest ++ (toLeBytes4 xor ++ junk)))) := by
      rw [h1]
      simp [List.append_assoc]
    have h5 : file = ((((pre ++ toLeBytes4 (e.offset ^^^ xor)) ++
          toLeBytes4 (e.size ^^^ xor)) ++ toLeBytes4 (e.magic ^^^ xor)) ++
          toLeBytes4 (e.name.length % U32 ^^^ xor)) ++
        (codecNameFixed xor 0 (e.name.map toBackslash) ++
          (rgss3aRecords xor rest ++ (toLeBytes4 xor ++ junk))) := by
      rw [h1]
      simp [List.append_assoc]
    have hflen : file.length = pre.length + 16 + e.name.length +
        ((rgss3aRecords xor rest).length + 4 + junk.length) := by
      rw [h1]
      simp [toLeBytes4_length, codecNameFixed_length]
      omega
    -- the four field reads
    have r1 : readU32D file pre.length = e.offset ^^^ xor := by
      rw [h1]
      exact readU32D_at pre _ _ (xor_lt_U32 _ _ hofflt hxor)
    have r2 : readU32D file (pre.length + 4) = e.size ^^^ xor := by
      rw [show pre.length + 4 = (pre ++ toLeBytes4 (e.offset ^^^ xor)).length by
        simp [toLeBytes4_length]]
      rw [h2]
      exact readU32D_at _ _ _ (xor_lt_U32 _ _ hszlt hxor)
    have r3 : readU32D file (pre.length + 8) = e.magic ^^^ xor := by
      rw [show pre.length + 8 = ((pre ++ toLeBytes4 (e.offset ^^^ xor)) ++
          toLeBytes4 (e.size ^^^ xor)).length by simp [toLeBytes4_length]]
      rw [h3]
      exact readU32D_at _ _ _ (xor_lt_U32 _ _ hmglt hxor)
    have r4 : readU32D file (pre.length + 12) = e.name.length % U32 ^^^ xor := by
      rw [show pre.length + 12 = (((pre ++ toLeBytes4 (e.offset ^^^ xor)) ++
          toLeBytes4 (e.size ^^^ xor)) ++ toLeBytes4 (e.magic ^^^ xor)).length by
        simp [toLeBytes4_length]]
      rw [h4]
      exact readU32D_at _ _ _ (xor_lt_U32 _ _ (Nat.mod_lt _ (by simp [U32])) hxor)
    have rname : (file.drop (pre.length + 16)).take e.name.length
        = codecNameFixed xor 0 (e.name.map toBackslash) := by
      rw [show pre.length + 16 = ((((pre ++ toLeBytes4 (e.offset ^^^ xor)) ++
          toLeBytes4 (e.size ^^^ xor)) ++ toLeBytes4 (e.magic ^^^ xor)) ++
          toLeBytes4 (e.name.length % U32 ^^^ xor)).length + 0 by
        simp [toLeBytes4_length]]
      rw [h5, drop_append_len_add, List.drop_zero]
      rw [show e.name.length
          = (codecNameFixed xor 0 (e.name.map toBackslash)).length by
        simp [codecNameFixed_length]]
      exact take_append_len _ _
    cases fuel with
    | zero => omega
    | succ fuel =>
      simp only [read_entries_rgss3a_loop]
      rw [r1, xor_xor_cancel]
      rw [if_pos (by omega : pre.length + 4 ≤ file.length)]
      rw [if_neg hoff0]
      rw [if_pos (by omega : pre.length + 8 ≤ file.length)]
      rw [r2, xor_xor_cancel]
      rw [if_pos (by omega : pre.length + 12 ≤ file.length)]
      rw [r3, xor_xor_cancel]
      rw [if_pos (by omega : pre.length + 16 ≤ file.length)]
      rw [r4, xor_xor_cancel, Nat.mod_eq_of_lt hnllt]
      rw [if_pos (by omega : pre.length + 16 + e.name.length ≤ file.length)]
      rw [rname, codecNameFixed_codecNameFixed, name_roundtrip e.name hnobs]
      rw [if_pos hutf]
      have hres : read_entries_rgss3a_loop file fuel xor
          (pre.length + 16 + e.name.length) = .ok rest := by
        have hpre : (((((pre ++ toLeBytes4 (e.offset ^^^ xor)) ++
            toLeBytes4 (e.size ^^^ xor)) ++ toLeBytes4 (e.magic ^^^ xor)) ++
            toLeBytes4 (e.name.length % U32 ^^^ xor)) ++
            codecNameFixed xor 0 (e.name.map toBackslash)).length
            = pre.length + 16 + e.name.length := by
          simp [toLeBytes4_length, codecNameFixed_length]
          omega
        have := ih (((((pre ++ toLeBytes4 (e.offset ^^^ xor)) ++
            toLeBytes4 (e.size ^^^ xor)) ++ toLeBytes4 (e.magic ^^^ xor)) ++
            toLeBytes4 (e.name.length % U32 ^^^ xor)) ++
            codecNameFixed xor 0 (e.name.map toBackslash)) junk xor fuel file
          (by rw [h1]; simp [List.append_assoc]) hxor
          (by rw [hpre]; omega) hrest
        rwa [hpre] at this
      rw [hres]

/-- Claim C5: in version 3 table decoding a single fixed mask
`xor = base_seed * 9 + 3 (mod 2^32)` is computed once from the verbatim base
seed and used unchanged for every 32-bit field of every record, name byte `i`
being XORed with byte `i mod 4` of the mask's little-endian encoding (the
serialized records below are masked exactly that way, and decoding recovers
every entry); the record whose decoded offset is 0 — the terminator word, the
mask itself — ends the table without error, and nothing past it (`junk`) is
read or affects the result. -/
theorem fixed_mask_table (base : Nat) (items : List RGSSArchiveEntry)
    (junk : List Nat) (hbase : base < U32)
    (hitems : ∀ e ∈ items, e.offset ≠ 0 ∧ e.offset < U32 ∧ e.size < U32 ∧
      e.magic < U32 ∧ e.name.length < U32 ∧
      isValidUtf8 e.name = true ∧ ∀ b ∈ e.name, b ≠ 92) :
    read_entries_rgss3a
      (toLeBytes4 base ++ (rgss3aRecords ((base * 9 + 3) % U32) items ++
        (toLeBytes4 ((base * 9 + 3) % U32) ++ junk))) 0 = .ok (base, items) := by
  have hxor : (base * 9 + 3) % U32 < U32 := by
    simp only [U32]
    omega
  have hr := rgss3a_loop_reads items (toLeBytes4 base) junk ((base * 9 + 3) % U32)
    ((toLeBytes4 base ++ (rgss3aRecords ((base * 9 + 3) % U32) items ++
      (toLeBytes4 ((base * 9 + 3) % U32) ++ junk))).length + 1) _ rfl hxor
    (by simp [toLeBytes4_length]) hitems
  simp only [read_entries_rgss3a]
  rw [if_pos (by simp [toLeBytes4_length])]
  have hbase_read : readU32D (toLeBytes4 base ++
      (rgss3aRecords ((base * 9 + 3) % U32) items ++
        (toLeBytes4 ((base * 9 + 3) % U32) ++ junk))) 0 = base := by
    have h0 := readU32D_at [] base (rgss3aRecords ((base * 9 + 3) % U32) items ++
      (toLeBytes4 ((base * 9 + 3) % U32) ++ junk)) hbase
    simpa using h0
  rw [hbase_read]
  simp only [toLeBytes4_length] at hr
  simp only [Nat.zero_add]
  rw [hr]

theorem fixed_mask_table_witness :
    read_entries_rgss3a
      (toLeBytes4 7 ++ (rgss3aRecords ((7 * 9 + 3) % U32) [⟨[97, 47, 98], 5, 1000, 42⟩] ++
        (toLeBytes4 ((7 * 9 + 3) % U32) ++ [9, 9, 9]))) 0
      = .ok (7, [⟨[97, 47, 98], 5, 1000, 42⟩]) :=
  fixed_mask_table 7 [⟨[97, 47, 98], 5, 1000, 42⟩] [9, 9, 9] (by decide) (by decide)

/-!
## Structure of the version 1/2 serialized table (towards claim C1)

`v12Bytes`/`v12Entries` describe what `write_entries_rgssad` produces when no
arithmetic check fails; `v12Filled` is the same byte stream after the
per-entry payload writes have replaced each zero region with the encoded
payload.
-/

def v12Bytes (magic : Nat) : List RGSSArchiveEntry → List Nat
  | [] => []
  | e :: rest =>
    toLeBytes4 (e.name.length ^^^ magic) ++
      ((codecNameRolling (advance magic) (e.name.map toBackslash)).1 ++
        (toLeBytes4 (e.size ^^^
            (codecNameRolling (advance magic) (e.name.map toBackslash)).2) ++
          (List.replicate e.size 0 ++
            v12Bytes (advance (codecNameRolling (advance magic)
              (e.name.map toBackslash)).2) rest)))

def v12Entries (magic offset : Nat) : List RGSSArchiveEntry → List RGSSArchiveEntry
  | [] => []
  | e :: rest =>
    { e with
      offset := offset + e.name.length + 8
      magic := advance (codecNameRolling (advance magic) (e.name.map toBackslash)).2 } ::
      v12Entries (advance (codecNameRolling (advance magic) (e.name.map toBackslash)).2)
        (offset + e.name.length + 8 + e.size) rest

def v12Filled (limit magic : Nat) : List (RGSSArchiveEntry × List Nat) → List Nat
  | [] => []
  | (e, p) :: rest =>
    toLeBytes4 (e.name.length ^^^ magic) ++
      ((codecNameRolling (advance magic) (e.name.map toBackslash)).1 ++
        (toLeBytes4 (e.size ^^^
            (codecNameRolling (advance magic) (e.name.map toBackslash)).2) ++
          (runCodec limit (advance (codecNameRolling (advance magic)
              (e.name.map toBackslash)).2) e.size p ++
            v12Filled limit (advance (codecNameRolling (advance magic)
              (e.name.map toBackslash)).2) rest)))

theorem sum_map_le_16 (es : List RGSSArchiveEntry) :
    (es.map fun e => e.name.length + 8 + e.size).sum
      ≤ (es.map fun e => e.name.length + 16 + e.size).sum := by
  induction es with
  | nil => simp
  | cons e rest ih =>
    simp only [List.map_cons, List.sum_cons]
    omega

/-- When the accumulated offsets stay inside `u32`, `write_entries_rgssad`
succeeds and produces exactly the record stream with zero-filled payload
regions, assigning each entry its offset and seed. -/
theorem write_rgssad_loop_ok (entries : List RGSSArchiveEntry) :
    ∀ magic offset, offset < U32 →
      offset + (entries.map fun e => e.name.length + 8 + e.size).sum < U32 →
      write_entries_rgssad_loop magic offset entries
        = .ok (v12Bytes magic entries, v12Entries magic offset entries) := by
  induction entries with
  | nil =>
    intro magic offset _ _
    rfl
  | cons e rest ih =>
    intro magic offset hlt hsum
    simp only [List.map_cons, List.sum_cons] at hsum
    simp only [write_entries_rgssad_loop, v12Bytes, v12Entries]
    rw [if_pos (by omega : e.name.length < U32)]
    rw [if_pos (by omega : offset + e.name.length + 8 < U32)]
    rw [if_pos (by omega : offset + e.name.length + 8 + e.size < U32)]
    rw [ih _ (offset + e.name.length + 8 + e.size) (by omega) (by omega)]
    simp [List.append_assoc]

/-- Each payload write (`RGSSArchiveEntry::write` at the recorded offset)
replaces exactly that entry's zero region with the encoded payload. -/
theorem writeAt_replace (A B C D : List Nat) (hlen : D.length = B.length) :
    writeAt (A ++ (B ++ C)) A.length D = A ++ (D ++ C) := by
  simp only [writeAt]
  rw [take_append_len]
  have h1 : A.length - (A ++ (B ++ C)).length = 0 := by
    simp only [List.length_append]
    omega
  rw [h1, List.replicate_zero, hlen]
  have h2 : (A ++ (B ++ C)).drop (A.length + B.length) = C := by
    rw [drop_append_len_add, drop_append_len]
  rw [h2]
  simp

theorem writePayloads_fill (entries : List RGSSArchiveEntry) :
    ∀ (ps : List (List Nat)) (pre : List Nat) (limit magic : Nat),
      limit % 4 = 0 → 0 < limit →
      List.Forall₂ (fun (e : RGSSArchiveEntry) (p : List Nat) => e.size = p.length)
        entries ps →
      writePayloads limit (pre ++ v12Bytes magic entries)
          ((v12Entries magic pre.length entries).zip ps)
        = pre ++ v12Filled limit magic (entries.zip ps) := by
  induction entries with
  | nil =>
    intro ps pre limit magic _ _ hsz
    cases hsz
    rfl
  | cons e rest ih =>
    intro ps pre limit magic h4 h0 hsz
    cases hsz with
    | cons hsz1 hszrest =>
      rename_i p ps'
      simp only [v12Entries, v12Bytes, v12Filled, List.zip_cons_cons, writePayloads]
      -- the first payload write lands exactly on the zero region
      have henc : (runCodec limit
            (advance (codecNameRolling (advance magic) (e.name.map toBackslash)).2)
            e.size p).length = (List.replicate e.size (0 : Nat)).length := by
        rw [runCodec_length _ _ _ _ h4 h0, List.length_replicate]
        omega
      have harr : pre ++ (toLeBytes4 (e.name.length ^^^ magic) ++
            ((codecNameRolling (advance magic) (e.name.map toBackslash)).1 ++
              (toLeBytes4 (e.size ^^^
                  (codecNameRolling (advance magic) (e.name.map toBackslash)).2) ++
                (List.replicate e.size 0 ++
                  v12Bytes (advance (codecNameRolling (advance magic)
                    (e.name.map toBackslash)).2) rest))))
          = (pre ++ toLeBytes4 (e.name.length ^^^ magic) ++
              (codecNameRolling (advance magic) (e.name.map toBackslash)).1 ++
              toLeBytes4 (e.size ^^^
                (codecNameRolling (advance magic) (e.name.map toBackslash)).2)) ++
            (List.replicate e.size 0 ++
              v12Bytes (advance (codecNameRolling (advance magic)
                (e.name.map toBackslash)).2) rest) := by
        simp [List.append_assoc]
      have hofflen : pre.length + e.name.length + 8
          = (pre ++ toLeBytes4 (e.name.length ^^^ magic) ++
              (codecNameRolling (advance magic) (e.name.map toBackslash)).1 ++
              toLeBytes4 (e.size ^^^
                (codecNameRolling (advance magic) (e.name.map toBackslash)).2)).length := by
        simp [toLeBytes4_length, codecNameRolling_length]
        omega
      simp only [entryWrite]
      rw [harr, hofflen, writeAt_replace _ _ _ _ henc]
      have hback : (pre ++ toLeBytes4 (e.name.length ^^^ magic) ++
            (codecNameRolling (advance magic) (e.name.map toBackslash)).1 ++
            toLeBytes4 (e.size ^^^
              (codecNameRolling (advance magic) (e.name.map toBackslash)).2)) ++
          (runCodec limit (advance (codecNameRolling (advance magic)
              (e.name.map toBackslash)).2) e.size p ++
            v12Bytes (advance (codecNameRolling (advance magic)
              (e.name.map toBackslash)).2) rest)
          = (pre ++ (toLeBytes4 (e.name.length ^^^ magic) ++
              ((codecNameRolling (advance magic) (e.name.map toBackslash)).1 ++
                (toLeBytes4 (e.size ^^^
                    (codecNameRolling (advance magic) (e.name.map toBackslash)).2) ++
                  runCodec limit (advance (codecNameRolling (advance magic)
                    (e.name.map toBackslash)).2) e.size p)))) ++
            v12Bytes (advance (codecNameRolling (advance magic)
              (e.name.map toBackslash)).2) rest := by
        simp [List.append_assoc]
      rw [hback]
      have hprelen : (pre ++ toLeBytes4 (e.name.length ^^^ magic) ++
            (codecNameRolling (advance magic) (e.name.map toBackslash)).1 ++
            toLeBytes4 (e.size ^^^
              (codecNameRolling (advance magic) (e.name.map toBackslash)).2)).length
            + e.size
          = (pre ++ (toLeBytes4 (e.name.length ^^^ magic) ++
              ((codecNameRolling (advance magic) (e.name.map toBackslash)).1 ++
                (toLeBytes4 (e.size ^^^
                    (codecNameRolling (advance magic) (e.name.map toBackslash)).2) ++
                  runCodec limit (advance (codecNameRolling (advance magic)
                    (e.name.map toBackslash)).2) e.size p)))).length := by
        simp [toLeBytes4_length, codecNameRolling_length,
          runCodec_length _ _ _ _ h4 h0]
        omega
      have ih2 := ih ps' (pre ++ (toLeBytes4 (e.name.length ^^^ magic) ++
          ((codecNameRolling (advance magic) (e.name.map toBackslash)).1 ++
            (toLeBytes4 (e.size ^^^
                (codecNameRolling (advance magic) (e.name.map toBackslash)).2) ++
              runCodec limit (advance (codecNameRolling (advance magic)
                (e.name.map toBackslash)).2) e.size p))))
        limit (advance (codecNameRolling (advance magic) (e.name.map toBackslash)).2)
        h4 h0 hszrest
      simp only [List.zip] at ih2
      rw [hprelen, ih2]
      simp [List.append_assoc]

theorem v12Filled_length (limit : Nat) (entries : List RGSSArchiveEntry) :
    ∀ (ps : List (List Nat)) (magic : Nat),
      limit % 4 = 0 → 0 < limit →
      List.Forall₂ (fun (e : RGSSArchiveEntry) (p : List Nat) => e.size = p.length)
        entries ps →
      (v12Filled limit magic (entries.zip ps)).length
        = (entries.map fun e => e.name.length + 8 + e.size).sum := by
  induction entries with
  | nil =>
    intro ps magic _ _ hsz
    cases hsz
    rfl
  | cons e rest ih =>
    intro ps magic h4 h0 hsz
    cases hsz with
    | cons hsz1 hszrest =>
      rename_i p ps'
      have ihh := ih ps' (advance (codecNameRolling (advance magic)
        (e.name.map toBackslash)).2) h4 h0 hszrest
      simp only [List.zip] at ihh
      simp only [List.zip, List.zipWith_cons_cons, v12Filled, List.map_cons,
        List.sum_cons, List.length_append, toLeBytes4_length,
        codecNameRolling_length, List.length_map,
        runCodec_length _ _ _ _ h4 h0, ihh]
      omega

/-- Reading back a version 1/2 table whose zero regions have been replaced by
the encoded payloads: the rolling seed replays in lockstep and every record
is recovered with the offsets and seeds the writer assigned. -/
theorem rgssad_loop_reads (entries : List RGSSArchiveEntry) :
    ∀ (ps : List (List Nat)) (pre : List Nat) (limit magic fuel : Nat)
      (file : List Nat),
      limit % 4 = 0 → 0 < limit →
      file = pre ++ v12Filled limit magic (entries.zip ps) →
      magic < U32 →
      file.length + 1 ≤ fuel + pre.length →
      pre.length + (entries.map fun e => e.name.length + 8 + e.size).sum < U32 →
      List.Forall₂ (fun (e : RGSSArchiveEntry) (p : List Nat) => e.size = p.length)
        entries ps →
      (∀ e ∈ entries, isValidUtf8 e.name = true ∧ ∀ b ∈ e.name, b ≠ 92) →
      read_entries_rgssad_loop file fuel magic pre.length
        = .ok (v12Entries magic pre.length entries) := by
  induction entries with
  | nil =>
    intro ps pre limit magic fuel file _ _ hfile hmg hfuel hbound hsz hnames
    cases hsz
    simp only [List.zip_nil_left, v12Filled, List.append_nil] at hfile
    rw [hfile] at hfuel ⊢
    cases fuel with
    | zero => omega
    | succ fuel =>
      simp only [read_entries_rgssad_loop, v12Entries]
      have hng : ¬ (pre.length + 4 ≤ pre.length) := by omega
      rw [if_neg hng]
  | cons e rest ih =>
    intro ps pre limit magic fuel file h4 h0 hfile hmg hfuel hbound hsz hnames
    cases hsz with
    | cons hsz1 hszrest =>
      rename_i p ps'
      obtain ⟨hutf, hnobs⟩ := hnames e (by simp)
      have hnrest : ∀ e' ∈ rest, isValidUtf8 e'.name = true ∧ ∀ b ∈ e'.name, b ≠ 92 :=
        fun e' he' => hnames e' (by simp [he'])
      simp only [List.map_cons, List.sum_cons] at hbound
      simp only [List.zip_cons_cons, v12Filled] at hfile
      -- boundary decompositions of the file
      have h1 : file = pre ++ (toLeBytes4 (e.name.length ^^^ magic) ++
          ((codecNameRolling (advance magic) (e.name.map toBackslash)).1 ++
            (toLeBytes4 (e.size ^^^
                (codecNameRolling (advance magic) (e.name.map toBackslash)).2) ++
              (runCodec limit (advance (codecNameRolling (advance magic)
                  (e.name.map toBackslash)).2) e.size p ++
                v12Filled limit (advance (codecNameRolling (advance magic)
                  (e.name.map toBackslash)).2) (rest.zip ps'))))) := hfile
      have h2 : file = (pre ++ toLeBytes4 (e.name.length ^^^ magic)) ++
          ((codecNameRolling (advance magic) (e.name.map toBackslash)).1 ++
            (toLeBytes4 (e.size ^^^
                (codecNameRolling (advance magic) (e.name.map toBackslash)).2) ++
              (runCodec limit (advance (codecNameRolling (advance magic)
                  (e.name.map toBackslash)).2) e.size p ++
                v12Filled limit (advance (codecNameRolling (advance magic)
                  (e.name.map toBackslash)).2) (rest.zip ps')))) := by
        rw [h1]
        simp [List.append_assoc]
      have h3 : file = ((pre ++ toLeBytes4 (e.name.length ^^^ magic)) ++
            (codecNameRolling (advance magic) (e.name.map toBackslash)).1) ++
          (toLeBytes4 (e.size ^^^
              (codecNameRolling (advance magic) (e.name.map toBackslash)).2) ++
            (runCodec limit (advance (codecNameRolling (advance magic)
                (e.name.map toBackslash)).2) e.size p ++
              v12Filled limit (advance (codecNameRolling (advance magic)
                (e.name.map toBackslash)).2) (rest.zip ps'))) := by
        rw [h1]
        simp [List.append_assoc]
      have h5 : file = (((pre ++ toLeBytes4 (e.name.length ^^^ magic)) ++
            (codecNameRolling (advance magic) (e.name.map toBackslash)).1) ++
            toLeBytes4 (e.size ^^^
              (codecNameRolling (advance magic) (e.name.map toBackslash)).2)) ++
          (runCodec limit (advance (codecNameRolling (advance magic)
              (e.name.map toBackslash)).2) e.size p ++
            v12Filled limit (advance (codecNameRolling (advance magic)
              (e.name.map toBackslash)).2) (rest.zip ps')) := by
        rw [h1]
        simp [List.append_assoc]
      have hflen : file.length = pre.length + 8 + e.name.length + e.size +
          (v12Filled limit (advance (codecNameRolling (advance magic)
            (e.name.map toBackslash)).2) (rest.zip ps')).length := by
        rw [h1]
        simp [toLeBytes4_length, codecNameRolling_length,
          runCodec_length _ _ _ _ h4 h0]
        omega
      have hnm2lt : (codecNameRolling (advance magic) (e.name.map toBackslash)).2 < U32 := by
        rw [codecNameRolling_snd, advanceIter_shift]
        exact advanceIter_lt _ _ (by omega)
      -- field reads
      have r1 : readU32D file pre.length = e.name.length ^^^ magic := by
        rw [h1]
        exact readU32D_at pre _ _ (xor_lt_U32 _ _ (by omega) hmg)
      have rname : (file.drop (pre.length + 4)).take e.name.length
          = (codecNameRolling (advance magic) (e.name.map toBackslash)).1 := by
        rw [show pre.length + 4
            = (pre ++ toLeBytes4 (e.name.length ^^^ magic)).length + 0 by
          simp [toLeBytes4_length]]
        rw [h2, drop_append_len_add, List.drop_zero]
        rw [show e.name.length
            = (codecNameRolling (advance magic) (e.name.map toBackslash)).1.length by
          simp [codecNameRolling_length]]
        exact take_append_len _ _
      have r2 : readU32D file (pre.length + 4 + e.name.length)
          = e.size ^^^ (codecNameRolling (advance magic) (e.name.map toBackslash)).2 := by
        rw [show pre.length + 4 + e.name.length
            = ((pre ++ toLeBytes4 (e.name.length ^^^ magic)) ++
              (codecNameRolling (advance magic) (e.name.map toBackslash)).1).length by
          simp [toLeBytes4_length, codecNameRolling_length]
          omega]
        rw [h3]
        exact readU32D_at _ _ _ (xor_lt_U32 _ _ (by omega) hnm2lt)
      have hsnd2 : (codecNameRolling (advance magic)
            ((codecNameRolling (advance magic) (e.name.map toBackslash)).1)).2
          = (codecNameRolling (advance magic) (e.name.map toBackslash)).2 := by
        rw [codecNameRolling_snd, codecNameRolling_snd, codecNameRolling_length]
      cases fuel with
      | zero => omega
      | succ fuel =>
        simp only [read_entries_rgssad_loop]
        rw [r1, xor_xor_cancel]
        rw [if_pos (by omega : pre.length + 4 ≤ file.length)]
        rw [if_pos (by omega : pre.length + 4 + e.name.length ≤ file.length)]
        rw [rname, codecNameRolling_codecNameRolling, name_roundtrip e.name hnobs,
          hsnd2]
        rw [if_pos hutf]
        rw [if_pos (by omega : pre.length + 8 + e.name.length ≤ file.length)]
        rw [r2, xor_xor_cancel]
        have hoffeq : (pre.length + 8 + e.name.length) % U32
            = pre.length + e.name.length + 8 := by
          simp only [U32] at hbound ⊢
          omega
        rw [hoffeq]
        have hres : read_entries_rgssad_loop file fuel
            (advance (codecNameRolling (advance magic) (e.name.map toBackslash)).2)
            (pre.length + 8 + e.name.length + e.size) = .ok
              (v12Entries (advance (codecNameRolling (advance magic)
                (e.name.map toBackslash)).2) (pre.length + e.name.length + 8 + e.size)
                rest) := by
          have hpre : ((((pre ++ toLeBytes4 (e.name.length ^^^ magic)) ++
              (codecNameRolling (advance magic) (e.name.map toBackslash)).1) ++
              toLeBytes4 (e.size ^^^
                (codecNameRolling (advance magic) (e.name.map toBackslash)).2)) ++
              runCodec limit (advance (codecNameRolling (advance magic)
                (e.name.map toBackslash)).2) e.size p).length
              = pre.length + 8 + e.name.length + e.size := by
            simp [toLeBytes4_length, codecNameRolling_length,
              runCodec_length _ _ _ _ h4 h0]
            omega
          have := ih ps' ((((pre ++ toLeBytes4 (e.name.length ^^^ magic)) ++
              (codecNameRolling (advance magic) (e.name.map toBackslash)).1) ++
              toLeBytes4 (e.size ^^^
                (codecNameRolling (advance magic) (e.name.map toBackslash)).2)) ++
              runCodec limit (advance (codecNameRolling (advance magic)
                (e.name.map toBackslash)).2) e.size p)
            limit (advance (codecNameRolling (advance magic) (e.name.map toBackslash)).2)
            fuel file h4 h0 (by rw [h1]; simp [List.append_assoc]) (advance_lt _)
            (by rw [hpre]; omega) (by rw [hpre]; omega) hszrest hnrest
          rw [hpre] at this
          have hco : pre.length + e.name.length + 8 + e.size
              = pre.length + 8 + e.name.length + e.size := by omega
          rw [hco, this]
        rw [hres]
        simp only [v12Entries]

/-- Decoding an encoded payload planted in a larger file: `run_codec` keyed
with the same seed reads exactly `size` bytes starting at the plant position
and returns the original payload. -/
theorem codec_extract (limit magic : Nat) (p tail : List Nat)
    (h4 : limit % 4 = 0) (h0 : 0 < limit) (hm : magic < U32)
    (hb : ∀ b ∈ p, b < 256) :
    runCodec limit magic p.length (runCodec limit magic p.length p ++ tail) = p := by
  have hlen : (runCodec limit magic p.length p).length = p.length := by
    rw [runCodec_length _ _ _ _ h4 h0]
    omega
  rw [runCodec_eq_global _ _ _ _ h4 h0]
  have hmin : min p.length (runCodec limit magic p.length p ++ tail).length
      = p.length := by
    simp only [List.length_append, hlen]
    omega
  rw [hmin]
  have htake : ∀ l : List Nat, l.length = p.length →
      (l ++ tail).take p.length = l := by
    intro l hl
    rw [← hl]
    exact take_append_len _ _
  rw [htake _ hlen]
  rw [runCodec_eq_global _ _ _ _ h4 h0]
  have hmin2 : min p.length p.length = p.length := by omega
  rw [hmin2, List.take_length]
  have := codecChunk_codecChunk magic p hm hb
  rw [this]

theorem v12_payloads (entries : List RGSSArchiveEntry) :
    ∀ (ps : List (List Nat)) (pre : List Nat) (limit magic : Nat) (file : List Nat),
      limit % 4 = 0 → 0 < limit →
      file = pre ++ v12Filled limit magic (entries.zip ps) →
      List.Forall₂ (fun (e : RGSSArchiveEntry) (p : List Nat) => e.size = p.length)
        entries ps →
      (∀ p ∈ ps, ∀ b ∈ p, b < 256) →
      (v12Entries magic pre.length entries).map
          (fun e => (e.name, entryRead limit e file))
        = (entries.map fun e => e.name).zip ps := by
  induction entries with
  | nil =>
    intro ps pre limit magic file _ _ _ hsz _
    cases hsz
    rfl
  | cons e rest ih =>
    intro ps pre limit magic file h4 h0 hfile hsz hpb
    cases hsz with
    | cons hsz1 hszrest =>
      rename_i p ps'
      have hpb1 : ∀ b ∈ p, b < 256 := hpb p (by simp)
      have hpbrest : ∀ q ∈ ps', ∀ b ∈ q, b < 256 := fun q hq => hpb q (by simp [hq])
      simp only [List.zip_cons_cons, v12Filled] at hfile
      have hz : List.zipWith (Prod.mk : RGSSArchiveEntry → List Nat →
          RGSSArchiveEntry × List Nat) rest ps' = rest.zip ps' := rfl
      rw [hz] at hfile
      simp only [v12Entries, List.map_cons, List.zip_cons_cons]
      have hdrop : file.drop (pre.length + e.name.length + 8)
          = runCodec limit (advance (codecNameRolling (advance magic)
              (e.name.map toBackslash)).2) e.size p ++
            v12Filled limit (advance (codecNameRolling (advance magic)
              (e.name.map toBackslash)).2) (rest.zip ps') := by
        have hplen : pre.length + e.name.length + 8
            = (((pre ++ toLeBytes4 (e.name.length ^^^ magic)) ++
              (codecNameRolling (advance magic) (e.name.map toBackslash)).1) ++
              toLeBytes4 (e.size ^^^
                (codecNameRolling (advance magic) (e.name.map toBackslash)).2)).length := by
          simp [toLeBytes4_length, codecNameRolling_length]
          omega
        rw [hplen, hfile]
        rw [show pre ++ (toLeBytes4 (e.name.length ^^^ magic) ++
            ((codecNameRolling (advance magic) (e.name.map toBackslash)).1 ++
              (toLeBytes4 (e.size ^^^
                  (codecNameRolling (advance magic) (e.name.map toBackslash)).2) ++
                (runCodec limit (advance (codecNameRolling (advance magic)
                    (e.name.map toBackslash)).2) e.size p ++
                  v12Filled limit (advance (codecNameRolling (advance magic)
                    (e.name.map toBackslash)).2) (rest.zip ps')))))
            = (((pre ++ toLeBytes4 (e.name.length ^^^ magic)) ++
              (codecNameRolling (advance magic) (e.name.map toBackslash)).1) ++
              toLeBytes4 (e.size ^^^
                (codecNameRolling (advance magic) (e.name.map toBackslash)).2)) ++
              (runCodec limit (advance (codecNameRolling (advance magic)
                  (e.name.map toBackslash)).2) e.size p ++
                v12Filled limit (advance (codecNameRolling (advance magic)
                  (e.name.map toBackslash)).2) (rest.zip ps')) from by
          simp [List.append_assoc]]
        exact drop_append_len _ _
      have hhead : entryRead limit
          { e with
            offset := pre.length + e.name.length + 8
            magic := advance (codecNameRolling (advance magic)
              (e.name.map toBackslash)).2 } file = p := by
        simp only [entryRead]
        rw [hdrop, hsz1]
        rw [show p.length = p.length from rfl]
        exact codec_extract limit _ p _ h4 h0 (advance_lt _) hpb1
      rw [hhead]
      have htail := ih ps' ((((pre ++ toLeBytes4 (e.name.length ^^^ magic)) ++
          (codecNameRolling (advance magic) (e.name.map toBackslash)).1) ++
          toLeBytes4 (e.size ^^^
            (codecNameRolling (advance magic) (e.name.map toBackslash)).2)) ++
          runCodec limit (advance (codecNameRolling (advance magic)
            (e.name.map toBackslash)).2) e.size p)
        limit (advance (codecNameRolling (advance magic) (e.name.map toBackslash)).2)
        file h4 h0
        (by rw [hfile]; simp [List.append_assoc]) hszrest hpbrest
      have hplen2 : ((((pre ++ toLeBytes4 (e.name.length ^^^ magic)) ++
          (codecNameRolling (advance magic) (e.name.map toBackslash)).1) ++
          toLeBytes4 (e.size ^^^
            (codecNameRolling (advance magic) (e.name.map toBackslash)).2)) ++
          runCodec limit (advance (codecNameRolling (advance magic)
            (e.name.map toBackslash)).2) e.size p).length
          = pre.length + e.name.length + 8 + e.size := by
        simp [toLeBytes4_length, codecNameRolling_length,
          runCodec_length _ _ _ _ h4 h0]
        omega
      rw [hplen2] at htail
      rw [htail]

/-!
## Version 3 offset assignment and payload placement (towards claim C1)
-/

def v3Entries (offset : Nat) : List RGSSArchiveEntry → List RGSSArchiveEntry
  | [] => []
  | e :: rest => { e with offset := offset } :: v3Entries (offset + e.size) rest

theorem rgss3aAssignOffsets_ok (es : List RGSSArchiveEntry) :
    ∀ offset, offset + (es.map fun e => e.size).sum < U32 →
      rgss3aAssignOffsets offset es = .ok (v3Entries offset es) := by
  induction es with
  | nil =>
    intro offset _
    rfl
  | cons e rest ih =>
    intro offset hlt
    simp only [List.map_cons, List.sum_cons] at hlt
    simp only [rgss3aAssignOffsets, v3Entries]
    rw [if_pos (by omega)]
    rw [ih (offset + e.size) (by omega)]

/-- The encoded payload region appended after a version 3 table. -/
def encPayloads (limit : Nat) : List (RGSSArchiveEntry × List Nat) → List Nat
  | [] => []
  | (e, p) :: rest => runCodec limit e.magic e.size p ++ encPayloads limit rest

theorem v3_payloads (entries : List RGSSArchiveEntry) :
    ∀ (ps : List (List Nat)) (pre : List Nat) (limit : Nat) (file : List Nat),
      limit % 4 = 0 → 0 < limit →
      file = pre ++ encPayloads limit ((v3Entries pre.length entries).zip ps) →
      List.Forall₂ (fun (e : RGSSArchiveEntry) (p : List Nat) => e.size = p.length)
        entries ps →
      (∀ e ∈ entries, e.magic < U32) →
      (∀ p ∈ ps, ∀ b ∈ p, b < 256) →
      (v3Entries pre.length entries).map
          (fun e => (e.name, entryRead limit e file))
        = (entries.map fun e => e.name).zip ps := by
  induction entries with
  | nil =>
    intro ps pre limit file _ _ _ hsz _ _
    cases hsz
    rfl
  | cons e rest ih =>
    intro ps pre limit file h4 h0 hfile hsz hmg hpb
    cases hsz with
    | cons hsz1 hszrest =>
      rename_i p ps'
      have hmg1 : e.magic < U32 := hmg e (by simp)
      have hmgrest : ∀ e' ∈ rest, e'.magic < U32 := fun e' he' => hmg e' (by simp [he'])
      have hpb1 : ∀ b ∈ p, b < 256 := hpb p (by simp)
      have hpbrest : ∀ q ∈ ps', ∀ b ∈ q, b < 256 := fun q hq => hpb q (by simp [hq])
      simp only [v3Entries, List.zip_cons_cons, encPayloads] at hfile
      have hz : List.zipWith (Prod.mk : RGSSArchiveEntry → List Nat →
          RGSSArchiveEntry × List Nat) (v3Entries (pre.length + e.size) rest) ps'
          = (v3Entries (pre.length + e.size) rest).zip ps' := rfl
      rw [hz] at hfile
      simp only [v3Entries, List.map_cons, List.zip_cons_cons]
      have hdrop : file.drop pre.length
          = runCodec limit e.magic e.size p ++
            encPayloads limit ((v3Entries (pre.length + e.size) rest).zip ps') := by
        rw [hfile]
        exact drop_append_len _ _
      have hhead : entryRead limit { e with offset := pre.length } file = p := by
        simp only [entryRead]
        rw [hdrop, hsz1]
        exact codec_extract limit _ p _ h4 h0 hmg1 hpb1
      rw [hhead]
      have htail := ih ps' (pre ++ runCodec limit e.magic e.size p) limit file h4 h0
        (by rw [hfile]
            have hl : (pre ++ runCodec limit e.magic e.size p).length
                = pre.length + e.size := by
              simp [runCodec_length _ _ _ _ h4 h0]
              omega
            rw [hl]
            simp [List.append_assoc])
        hszrest hmgrest hpbrest
      have hl2 : (pre ++ runCodec limit e.magic e.size p).length
          = pre.length + e.size := by
        simp [runCodec_length _ _ _ _ h4 h0]
        omega
      rw [hl2] at htail
      rw [htail]

theorem writeAt_append (pre data : List Nat) :
    writeAt pre pre.length data = pre ++ data := by
  simp only [writeAt, List.take_length, Nat.sub_self, List.replicate_zero,
    List.nil_append]
  rw [List.drop_eq_nil_of_le (by omega)]
  simp

theorem writePayloads_append (es : List RGSSArchiveEntry) :
    ∀ (ps : List (List Nat)) (pre : List Nat) (limit : Nat),
      limit % 4 = 0 → 0 < limit →
      List.Forall₂ (fun (e : RGSSArchiveEntry) (p : List Nat) => e.size = p.length)
        es ps →
      writePayloads limit pre ((v3Entries pre.length es).zip ps)
        = pre ++ encPayloads limit ((v3Entries pre.length es).zip ps) := by
  induction es with
  | nil =>
    intro ps pre limit _ _ hsz
    cases hsz
    simp [v3Entries, writePayloads, encPayloads]
  | cons e rest ih =>
    intro ps pre limit h4 h0 hsz
    cases hsz with
    | cons hsz1 hszrest =>
      rename_i p ps'
      simp only [v3Entries, List.zip_cons_cons, writePayloads, encPayloads]
      have hz : List.zipWith (Prod.mk : RGSSArchiveEntry → List Nat →
          RGSSArchiveEntry × List Nat) (v3Entries (pre.length + e.size) rest) ps'
          = (v3Entries (pre.length + e.size) rest).zip ps' := rfl
      rw [hz]
      have hw : entryWrite limit { e with offset := pre.length } p pre
          = pre ++ runCodec limit e.magic e.size p := by
        simp only [entryWrite]
        exact writeAt_append pre _
      rw [hw]
      have hlen : (pre ++ runCodec limit e.magic e.size p).length
          = pre.length + e.size := by
        simp [runCodec_length _ _ _ _ h4 h0]
        omega
      have htail := ih ps' (pre ++ runCodec limit e.magic e.size p) limit h4 h0 hszrest
      rw [hlen] at htail
      rw [htail]
      simp [List.append_assoc]

/-- The entries produced by the version 3 offset assignment satisfy the
well-formedness conditions the version 3 table reader needs, given that the
starting offset is positive and the accumulated offsets stay below `2^32`. -/
theorem v3Entries_spec (es : List RGSSArchiveEntry) :
    ∀ off, 0 < off → off + (es.map fun e => e.size).sum < U32 →
      (∀ e ∈ es, e.magic < U32 ∧ e.name.length < U32 ∧
        isValidUtf8 e.name = true ∧ ∀ b ∈ e.name, b ≠ 92) →
      ∀ e ∈ v3Entries off es, e.offset ≠ 0 ∧ e.offset < U32 ∧ e.size < U32 ∧
        e.magic < U32 ∧ e.name.length < U32 ∧
        isValidUtf8 e.name = true ∧ ∀ b ∈ e.name, b ≠ 92 := by
  induction es with
  | nil =>
    intro off _ _ _ e he
    cases he
  | cons e rest ih =>
    intro off hpos hbound hcond e' he'
    simp only [List.map_cons, List.sum_cons] at hbound
    simp only [v3Entries, List.mem_cons] at he'
    rcases he' with rfl | he'
    · obtain ⟨hm, hnl, hu, h92⟩ := hcond e (by simp)
      refine ⟨?_, ?_, ?_, hm, hnl, hu, h92⟩
      · show off ≠ 0
        omega
      · show off < U32
        omega
      · show e.size < U32
        omega
    · exact ih (off + e.size) (by omega) (by omega)
        (fun x hx => hcond x (by simp [hx])) e' he'

theorem v3Entries_sum16 (es : List RGSSArchiveEntry) :
    ∀ off, ((v3Entries off es).map fun e => e.name.length + 16).sum
      = (es.map fun e => e.name.length + 16).sum := by
  induction es with
  | nil =>
    intro off
    rfl
  | cons e rest ih =>
    intro off
    simp only [v3Entries, List.map_cons, List.sum_cons, ih]

/-- Parsing the header the writer emitted, with anything after it, yields the
version back. -/
theorem read_header_prefix (version : Nat) (tail : List Nat)
    (h : 1 ≤ version ∧ version ≤ 3) :
    read_header ((headerMagic ++ [0, version]) ++ tail) = .ok version := by
  have hassoc : (headerMagic ++ [0, version]) ++ tail
      = headerMagic ++ ([0, version] ++ tail) := by
    simp [List.append_assoc]
  simp only [read_header, hassoc]
  rw [if_pos (by simp [headerMagic])]
  have htake : (headerMagic ++ ([0, version] ++ tail)).take 6 = headerMagic := by
    rw [show 6 = headerMagic.length from rfl]
    exact take_append_len _ _
  rw [if_neg (by rw [htake]; simp)]
  have hget : (headerMagic ++ ([0, version] ++ tail)).getD 7 0 = version := by
    have := getD_append_len_add headerMagic ([0, version] ++ tail) 1
    simp only [show headerMagic.length = 6 from rfl] at this
    simpa using this
  rw [hget, if_pos h]

theorem round_trip_v12 (limit : Nat) (a : RGSSArchive) (ps : List (List Nat))
    (h4 : limit % 4 = 0) (h0 : 0 < limit)
    (hver : a.version = 1 ∨ a.version = 2)
    (hsz : List.Forall₂ (fun (e : RGSSArchiveEntry) (p : List Nat) =>
      e.size = p.length) a.entries ps)
    (hnames : ∀ e ∈ a.entries, isValidUtf8 e.name = true ∧ ∀ b ∈ e.name, b ≠ 92)
    (hpb : ∀ p ∈ ps, ∀ b ∈ p, b < 256)
    (hbound : 16 + (a.entries.map fun e => e.name.length + 16 + e.size).sum < U32) :
    ∃ file, packFile limit a ps = .ok file ∧
      unpack limit file = .ok ((a.entries.map fun e => e.name).zip ps) := by
  have hsum8 : 8 + (a.entries.map fun e => e.name.length + 8 + e.size).sum < U32 := by
    have := sum_map_le_16 a.entries
    omega
  have hv13 : 1 ≤ a.version ∧ a.version ≤ 3 := by
    rcases hver with h | h <;> rw [h] <;> exact ⟨by omega, by omega⟩
  have hwh : write_header a.version = .ok (headerMagic ++ [0, a.version]) := by
    simp only [write_header]
    rw [if_pos hv13]
  have hwe : write_entries a
      = .ok (v12Bytes 3735931646 a.entries,
          { a with entries := v12Entries 3735931646 8 a.entries }) := by
    simp only [write_entries]
    rw [if_pos hver]
    simp only [write_entries_rgssad]
    rw [write_rgssad_loop_ok a.entries 3735931646 8 (by decide) hsum8]
  refine ⟨(headerMagic ++ [0, a.version]) ++
      v12Filled limit 3735931646 (a.entries.zip ps), ?_, ?_⟩
  · simp only [packFile, hwh, hwe]
    rw [show (8 : Nat) = (headerMagic ++ [0, a.version]).length from rfl]
    rw [writePayloads_fill a.entries ps (headerMagic ++ [0, a.version])
      limit 3735931646 h4 h0 hsz]
  · have hrh := read_header_prefix a.version
      (v12Filled limit 3735931646 (a.entries.zip ps)) hv13
    have hloop := rgssad_loop_reads a.entries ps (headerMagic ++ [0, a.version])
      limit 3735931646
      (((headerMagic ++ [0, a.version]) ++
        v12Filled limit 3735931646 (a.entries.zip ps)).length + 1)
      ((headerMagic ++ [0, a.version]) ++ v12Filled limit 3735931646 (a.entries.zip ps))
      h4 h0 rfl (by decide) (by omega)
      (by rw [show (headerMagic ++ [0, a.version]).length = 8 from rfl]
          exact hsum8)
      hsz hnames
    have hre : read_entries ⟨a.version, [], 0⟩
        ((headerMagic ++ [0, a.version]) ++
          v12Filled limit 3735931646 (a.entries.zip ps)) 8
        = .ok ⟨a.version, v12Entries 3735931646 8 a.entries, 0⟩ := by
      simp only [read_entries]
      rw [if_pos hver]
      simp only [read_entries_rgssad]
      rw [show (8 : Nat) = (headerMagic ++ [0, a.version]).length from rfl]
      rw [hloop]
      simp
    have hmap := v12_payloads a.entries ps (headerMagic ++ [0, a.version]) limit
      3735931646
      ((headerMagic ++ [0, a.version]) ++ v12Filled limit 3735931646 (a.entries.zip ps))
      h4 h0 rfl hsz hpb
    simp only [unpack, hrh, hre]
    rw [show (8 : Nat) = (headerMagic ++ [0, a.version]).length from rfl]
    rw [hmap]

theorem round_trip_v3 (limit : Nat) (a : RGSSArchive) (ps : List (List Nat))
    (h4 : limit % 4 = 0) (h0 : 0 < limit)
    (hver : a.version = 3)
    (hsz : List.Forall₂ (fun (e : RGSSArchiveEntry) (p : List Nat) =>
      e.size = p.length) a.entries ps)
    (hnames : ∀ e ∈ a.entries, isValidUtf8 e.name = true ∧ ∀ b ∈ e.name, b ≠ 92)
    (hmagics : ∀ e ∈ a.entries, e.magic < U32)
    (hbase : a.magic < U32)
    (hpb : ∀ p ∈ ps, ∀ b ∈ p, b < 256)
    (hbound : 16 + (a.entries.map fun e => e.name.length + 16 + e.size).sum < U32) :
    ∃ file, packFile limit a ps = .ok file ∧
      unpack limit file = .ok ((a.entries.map fun e => e.name).zip ps) := by
  have hsplit := sum_map_split16 a.entries
  have hper : ∀ e ∈ a.entries, e.name.length + 16 + e.size
      ≤ (a.entries.map fun e => e.name.length + 16 + e.size).sum := by
    intro e he
    exact List.single_le_sum (fun x _ => Nat.zero_le x) _ (List.mem_map_of_mem _ he)
  have hT : (16 + (a.entries.map fun e => e.name.length + 16).sum)
      + (a.entries.map fun e => e.size).sum < U32 := by omega
  have hTE : rgss3aTableEnd 16 a.entries
      = .ok (16 + (a.entries.map fun e => e.name.length + 16).sum) :=
    rgss3aTableEnd_ok a.entries 16 (by omega)
  have hAO : rgss3aAssignOffsets
        (16 + (a.entries.map fun e => e.name.length + 16).sum) a.entries
      = .ok (v3Entries (16 + (a.entries.map fun e => e.name.length + 16).sum)
          a.entries) :=
    rgss3aAssignOffsets_ok a.entries _ hT
  have hxor : (a.magic * 9 + 3) % U32 < U32 := Nat.mod_lt _ (by decide)
  have hwh : write_header a.version = .ok (headerMagic ++ [0, a.version]) := by
    simp only [write_header]
    rw [if_pos (by rw [hver]; exact ⟨by omega, by omega⟩)]
  have hwe : write_entries a
      = .ok (toLeBytes4 a.magic ++
          rgss3aRecords ((a.magic * 9 + 3) % U32)
            (v3Entries (16 + (a.entries.map fun e => e.name.length + 16).sum)
              a.entries) ++
          toLeBytes4 ((a.magic * 9 + 3) % U32),
          ⟨a.version,
            v3Entries (16 + (a.entries.map fun e => e.name.length + 16).sum)
              a.entries, a.magic⟩) := by
    simp only [write_entries]
    rw [if_neg (by rw [hver]; decide), if_pos hver]
    simp only [write_entries_rgss3a, hTE, hAO]
  have hpre : ((headerMagic ++ [0, a.version]) ++
      (toLeBytes4 a.magic ++
        rgss3aRecords ((a.magic * 9 + 3) % U32)
          (v3Entries (16 + (a.entries.map fun e => e.name.length + 16).sum)
            a.entries) ++
        toLeBytes4 ((a.magic * 9 + 3) % U32))).length
      = 16 + (a.entries.map fun e => e.name.length + 16).sum := by
    simp only [List.length_append, toLeBytes4_length, rgss3aRecords_length,
      v3Entries_sum16, show headerMagic.length = 6 from rfl,
      List.length_cons, List.length_nil]
    omega
  refine ⟨((headerMagic ++ [0, a.version]) ++
      (toLeBytes4 a.magic ++
        rgss3aRecords ((a.magic * 9 + 3) % U32)
          (v3Entries (16 + (a.entries.map fun e => e.name.length + 16).sum)
            a.entries) ++
        toLeBytes4 ((a.magic * 9 + 3) % U32))) ++
      encPayloads limit
        ((v3Entries (16 + (a.entries.map fun e => e.name.length + 16).sum)
          a.entries).zip ps), ?_, ?_⟩
  · simp only [packFile, hwh, hwe]
    have hfill := writePayloads_append a.entries ps
      ((headerMagic ++ [0, a.version]) ++
        (toLeBytes4 a.magic ++
          rgss3aRecords ((a.magic * 9 + 3) % U32)
            (v3Entries (16 + (a.entries.map fun e => e.name.length + 16).sum)
              a.entries) ++
          toLeBytes4 ((a.magic * 9 + 3) % U32)))
      limit h4 h0 hsz
    rw [hpre] at hfill
    rw [hfill]
  · have hitems := v3Entries_spec a.entries
      (16 + (a.entries.map fun e => e.name.length + 16).sum) (by omega) hT
      (by intro e he
          obtain ⟨hu, h92⟩ := hnames e he
          exact ⟨hmagics e he, by have := hper e he; omega, hu, h92⟩)
    have hrh := read_header_prefix a.version
      ((toLeBytes4 a.magic ++
        rgss3aRecords ((a.magic * 9 + 3) % U32)
          (v3Entries (16 + (a.entries.map fun e => e.name.length + 16).sum)
            a.entries) ++
        toLeBytes4 ((a.magic * 9 + 3) % U32)) ++
        encPayloads limit
          ((v3Entries (16 + (a.entries.map fun e => e.name.length + 16).sum)
            a.entries).zip ps)) (by rw [hver]; exact ⟨by omega, by omega⟩)
    have hshape : ((headerMagic ++ [0, a.version]) ++
        (toLeBytes4 a.magic ++
          rgss3aRecords ((a.magic * 9 + 3) % U32)
            (v3Entries (16 + (a.entries.map fun e => e.name.length + 16).sum)
              a.entries) ++
          toLeBytes4 ((a.magic * 9 + 3) % U32))) ++
        encPayloads limit
          ((v3Entries (16 + (a.entries.map fun e => e.name.length + 16).sum)
            a.entries).zip ps)
        = (headerMagic ++ [0, a.version]) ++
          ((toLeBytes4 a.magic ++
            rgss3aRecords ((a.magic * 9 + 3) % U32)
              (v3Entries (16 + (a.entries.map fun e => e.name.length + 16).sum)
                a.entries) ++
            toLeBytes4 ((a.magic * 9 + 3) % U32)) ++
            encPayloads limit
              ((v3Entries (16 + (a.entries.map fun e => e.name.length + 16).sum)
                a.entries).zip ps)) := by
      simp [List.append_assoc]
    have hrh2 : read_header (((headerMagic ++ [0, a.version]) ++
        (toLeBytes4 a.magic ++
          rgss3aRecords ((a.magic * 9 + 3) % U32)
            (v3Entries (16 + (a.entries.map fun e => e.name.length + 16).sum)
              a.entries) ++
          toLeBytes4 ((a.magic * 9 + 3) % U32))) ++
        encPayloads limit
          ((v3Entries (16 + (a.entries.map fun e => e.name.length + 16).sum)
            a.entries).zip ps))
        = .ok a.version := by
      rw [hshape]
      exact hrh
    have hlen12 : 8 + 4 ≤ (((headerMagic ++ [0, a.version]) ++
        (toLeBytes4 a.magic ++
          rgss3aRecords ((a.magic * 9 + 3) % U32)
            (v3Entries (16 + (a.entries.map fun e => e.name.length + 16).sum)
              a.entries) ++
          toLeBytes4 ((a.magic * 9 + 3) % U32))) ++
        encPayloads limit
          ((v3Entries (16 + (a.entries.map fun e => e.name.length + 16).sum)
            a.entries).zip ps)).length := by
      rw [List.length_append, hpre]
      omega
    have hbase_eq : readU32D (((headerMagic ++ [0, a.version]) ++
        (toLeBytes4 a.magic ++
          rgss3aRecords ((a.magic * 9 + 3) % U32)
            (v3Entries (16 + (a.entries.map fun e => e.name.length + 16).sum)
              a.entries) ++
          toLeBytes4 ((a.magic * 9 + 3) % U32))) ++
        encPayloads limit
          ((v3Entries (16 + (a.entries.map fun e => e.name.length + 16).sum)
            a.entries).zip ps)) 8 = a.magic := by
      have h := readU32D_at (headerMagic ++ [0, a.version]) a.magic
        (rgss3aRecords ((a.magic * 9 + 3) % U32)
            (v3Entries (16 + (a.entries.map fun e => e.name.length + 16).sum)
              a.entries) ++
          toLeBytes4 ((a.magic * 9 + 3) % U32) ++
          encPayloads limit
            ((v3Entries (16 + (a.entries.map fun e => e.name.length + 16).sum)
              a.entries).zip ps)) hbase
      rw [show (8 : Nat) = (headerMagic ++ [0, a.version]).length from rfl]
      rw [show ((headerMagic ++ [0, a.version]) ++
          (toLeBytes4 a.magic ++
            rgss3aRecords ((a.magic * 9 + 3) % U32)
              (v3Entries (16 + (a.entries.map fun e => e.name.length + 16).sum)
                a.entries) ++
            toLeBytes4 ((a.magic * 9 + 3) % U32))) ++
          encPayloads limit
            ((v3Entries (16 + (a.entries.map fun e => e.name.length + 16).sum)
              a.entries).zip ps)
          = (headerMagic ++ [0, a.version]) ++
            (toLeBytes4 a.magic ++
              (rgss3aRecords ((a.magic * 9 + 3) % U32)
                  (v3Entries (16 + (a.entries.map fun e => e.name.length + 16).sum)
                    a.entries) ++
                toLeBytes4 ((a.magic * 9 + 3) % U32) ++
                encPayloads limit
                  ((v3Entries
                    (16 + (a.entries.map fun e => e.name.length + 16).sum)
                    a.entries).zip ps))) from by simp [List.append_assoc]]
      exact h
    have hloop := rgss3a_loop_reads
      (v3Entries (16 + (a.entries.map fun e => e.name.length + 16).sum) a.entries)
      ((headerMagic ++ [0, a.version]) ++ toLeBytes4 a.magic)
      (encPayloads limit
        ((v3Entries (16 + (a.entries.map fun e => e.name.length + 16).sum)
          a.entries).zip ps))
      ((a.magic * 9 + 3) % U32)
      ((((headerMagic ++ [0, a.version]) ++
        (toLeBytes4 a.magic ++
          rgss3aRecords ((a.magic * 9 + 3) % U32)
            (v3Entries (16 + (a.entries.map fun e => e.name.length + 16).sum)
              a.entries) ++
          toLeBytes4 ((a.magic * 9 + 3) % U32))) ++
        encPayloads limit
          ((v3Entries (16 + (a.entries.map fun e => e.name.length + 16).sum)
            a.entries).zip ps)).length + 1)
      (((headerMagic ++ [0, a.version]) ++
        (toLeBytes4 a.magic ++
          rgss3aRecords ((a.magic * 9 + 3) % U32)
            (v3Entries (16 + (a.entries.map fun e => e.name.length + 16).sum)
              a.entries) ++
          toLeBytes4 ((a.magic * 9 + 3) % U32))) ++
        encPayloads limit
          ((v3Entries (16 + (a.entries.map fun e => e.name.length + 16).sum)
            a.entries).zip ps))
      (by simp [List.append_assoc]) hxor (by omega) hitems
    have hre : read_entries ⟨a.version, [], 0⟩
        (((headerMagic ++ [0, a.version]) ++
          (toLeBytes4 a.magic ++
            rgss3aRecords ((a.magic * 9 + 3) % U32)
              (v3Entries (16 + (a.entries.map fun e => e.name.length + 16).sum)
                a.entries) ++
            toLeBytes4 ((a.magic * 9 + 3) % U32))) ++
          encPayloads limit
            ((v3Entries (16 + (a.entries.map fun e => e.name.length + 16).sum)
              a.entries).zip ps)) 8
        = .ok ⟨a.version,
            v3Entries (16 + (a.entries.map fun e => e.name.length + 16).sum)
              a.entries, a.magic⟩ := by
      simp only [read_entries]
      rw [if_neg (by simp [hver]), if_pos (by simp [hver])]
      simp only [read_entries_rgss3a]
      rw [if_pos hlen12]
      rw [hbase_eq]
      rw [show (8 : Nat) + 4
          = ((headerMagic ++ [0, a.version]) ++ toLeBytes4 a.magic).length from rfl]
      rw [hloop]
      simp
    have hmap := v3_payloads a.entries ps
      ((headerMagic ++ [0, a.version]) ++
        (toLeBytes4 a.magic ++
          rgss3aRecords ((a.magic * 9 + 3) % U32)
            (v3Entries (16 + (a.entries.map fun e => e.name.length + 16).sum)
              a.entries) ++
          toLeBytes4 ((a.magic * 9 + 3) % U32)))
      limit
      (((headerMagic ++ [0, a.version]) ++
        (toLeBytes4 a.magic ++
          rgss3aRecords ((a.magic * 9 + 3) % U32)
            (v3Entries (16 + (a.entries.map fun e => e.name.length + 16).sum)
              a.entries) ++
          toLeBytes4 ((a.magic * 9 + 3) % U32))) ++
        encPayloads limit
          ((v3Entries (16 + (a.entries.map fun e => e.name.length + 16).sum)
            a.entries).zip ps))
      h4 h0 (by rw [hpre]) hsz hmagics hpb
    rw [hpre] at hmap
    simp only [unpack, hrh2, hre]
    rw [hmap]

/-- Claim C1: for every archive with at least one entry and for every version
in {1,2,3}, serializing the header, the entry table and each encoded payload,
then parsing the header, the table and decoding each payload, reproduces every
entry's original name and payload bytes exactly — provided every name is valid
UTF-8 and contains no backslash byte `0x5C` (the writers map `/`→`\` and the
readers map `\`→`/` unconditionally, so a backslash in a name is not
reproduced: see the counterexample), every payload is exactly its entry's
recorded size, the seeds fit in 32 bits, and the offset arithmetic stays below
`2^32` (otherwise the writer panics). -/
theorem round_trip (limit : Nat) (a : RGSSArchive) (ps : List (List Nat))
    (h4 : limit % 4 = 0) (h0 : 0 < limit)
    (hver : a.version = 1 ∨ a.version = 2 ∨ a.version = 3)
    (_hne : a.entries ≠ [])
    (hsz : List.Forall₂ (fun (e : RGSSArchiveEntry) (p : List Nat) =>
      e.size = p.length) a.entries ps)
    (hnames : ∀ e ∈ a.entries, isValidUtf8 e.name = true ∧ ∀ b ∈ e.name, b ≠ 92)
    (hmagics : ∀ e ∈ a.entries, e.magic < U32)
    (hbase : a.magic < U32)
    (hpb : ∀ p ∈ ps, ∀ b ∈ p, b < 256)
    (hbound : 16 + (a.entries.map fun e => e.name.length + 16 + e.size).sum < U32) :
    ∃ file, packFile limit a ps = .ok file ∧
      unpack limit file = .ok ((a.entries.map fun e => e.name).zip ps) := by
  rcases hver with h | h | h
  · exact round_trip_v12 limit a ps h4 h0 (Or.inl h) hsz hnames hpb hbound
  · exact round_trip_v12 limit a ps h4 h0 (Or.inr h) hsz hnames hpb hbound
  · exact round_trip_v3 limit a ps h4 h0 h hsz hnames hmagics hbase hpb hbound

/-- Claim C1, witness: a version 1 archive with one entry named `"a"` holding
the single byte `5` packs and unpacks back to that name and payload. -/
theorem round_trip_witness :
    ∃ file, packFile 4 ⟨1, [⟨[97], 1, 0, 0⟩], 0⟩ [[5]] = .ok file ∧
      unpack 4 file = .ok [([97], [5])] :=
  round_trip 4 ⟨1, [⟨[97], 1, 0, 0⟩], 0⟩ [[5]] (by decide) (by decide)
    (Or.inl rfl) (by decide) (.cons rfl .nil) (by decide) (by decide)
    (by decide) (by decide) (by decide)

/-- Claim C1, counterexample to the unrestricted statement: packing a version 1
archive whose single entry is named `[0x5C]` (a lone backslash) succeeds, but
unpacking the produced file yields the name `[0x2F]` (`/`): the writer maps
`/`→`\` and the reader maps `\`→`/` unconditionally, so a name containing a
backslash byte is not reproduced exactly. -/
theorem round_trip_cex :
    packFile 4 ⟨1, [⟨[92], 0, 0, 0⟩], 0⟩ [[]]
        = .ok [82, 71, 83, 83, 65, 68, 0, 1,
            255, 202, 173, 222, 169, 182, 218, 67, 159]
      ∧ unpack 4 [82, 71, 83, 83, 65, 68, 0, 1,
            255, 202, 173, 222, 169, 182, 218, 67, 159]
        = .ok [([47], [])]
      ∧ ([47] : List Nat) ≠ [92] := by
  exact ⟨by decide, by decide, by decide⟩

end Rgssad
